import Mathlib

/-!
# Verification of the pynicotine daemon search/browse state and tree builders

Shallow embedding of `pynicotine/daemon/state.py` and `pynicotine/daemon/trees.py`.

Python dictionaries are modelled as association lists with unique keys kept in
insertion order (lookup returns the entry for a key; assignment replaces the
value in place, keeping the key's position, or appends a fresh key at the end;
`pop` removes the entry), which matches CPython dict semantics for the
operations the source uses.

Strings are Lean `String`s.  `str.strip` is modelled by dropping
`Char.isWhitespace` characters at both ends, `str.casefold`/`str.lower` by
ASCII lowercasing, and string comparison by code-point lexicographic order on
the character list, all matching Python on the ASCII data the daemon handles.
-/

namespace PsycheSearch

/-! ## Association lists modelling Python dicts -/

/-- `d.get(k)`: first (and by construction only) binding of `k`. -/
def alGet {K V : Type} [DecidableEq K] : List (K × V) → K → Option V
  | [], _ => none
  | (k', v) :: m, k => if k' = k then some v else alGet m k

/-- `d[k] = v`: replace in place if the key exists, else append at the end
(CPython keeps the original insertion position on overwrite). -/
def alSet {K V : Type} [DecidableEq K] : List (K × V) → K → V → List (K × V)
  | [], k, v => [(k, v)]
  | (k', v') :: m, k, v => if k' = k then (k, v) :: m else (k', v') :: alSet m k v

/-- `d.setdefault(k, v)`: insert only when the key is absent. -/
def alSetD {K V : Type} [DecidableEq K] (m : List (K × V)) (k : K) (v : V) :
    List (K × V) :=
  match alGet m k with
  | some _ => m
  | none => alSet m k v

/-- `d.pop(k, None)`: drop the binding of `k` when present. -/
def alErase {K V : Type} [DecidableEq K] : List (K × V) → K → List (K × V)
  | [], _ => []
  | (k', v') :: m, k => if k' = k then m else (k', v') :: alErase m k

/-! ## String helpers modelling the Python string operations used -/

/-- Python `str.strip()` (whitespace trimmed from both ends). -/
def stripStr (s : String) : String :=
  ⟨((s.data.dropWhile Char.isWhitespace).reverse.dropWhile Char.isWhitespace).reverse⟩

/-- ASCII lowercasing of one character (as Python `str.lower`/`str.casefold`
behave on the ASCII range). -/
def lowerChar (c : Char) : Char :=
  if 65 ≤ c.toNat ∧ c.toNat ≤ 90 then Char.ofNat (c.toNat + 32) else c

/-- Python `str.casefold()` / `str.lower()`, modelled as ASCII lowercasing. -/
def lowerStr (s : String) : String := ⟨s.data.map lowerChar⟩

/-- Code-point lexicographic `≤` on character lists (Python string order). -/
def charListLe : List Char → List Char → Bool
  | [], _ => true
  | _ :: _, [] => false
  | a :: as, b :: bs =>
    if a.toNat < b.toNat then true
    else if b.toNat < a.toNat then false
    else charListLe as bs

/-- Python string `≤` (code-point lexicographic). -/
def strLe (a b : String) : Bool := charListLe a.data b.data

/-- Python `s.split(c)` for a single-character separator. -/
def splitCharList (c : Char) : List Char → List (List Char)
  | [] => [[]]
  | a :: as =>
    let r := splitCharList c as
    if a = c then [] :: r
    else
      match r with
      | [] => [[a]]
      | g :: gs => (a :: g) :: gs

/-- Python `path.split("\\")`. -/
def splitBS (s : String) : List String :=
  (splitCharList '\x5c' s.data).map String.mk

/-- Python `"\\".join(parts)`. -/
def joinBS : List String → String
  | [] => ""
  | [x] => x
  | x :: xs => x ++ "\x5c" ++ joinBS xs

/-- Python `s.startswith("@")`. -/
def startsWithAt (s : String) : Bool :=
  match s.data with
  | [] => false
  | c :: _ => c = '@'

/-! ## Data model of `DaemonState` (state.py)

Only the fields the verified operations read or write are modelled
(`searches`, `search_results`, `search_terms`, `max_search_results`,
`download_path_overrides`); the remaining slots (chat buffer, share counts,
connection strings, pending-request table, browse events) are independent and
do not interact with the claims below.  Cross-thread plumbing
(lock, `pending_requests`, `threading.Event`) is modelled by making each
bridged round trip an explicit function parameter: a Boolean `delivered`
says whether the owner-thread callback completed before the caller's bounded
wait expired, exactly the observable outcome of the wait/pop idiom in the
source. -/

/-- One `self.searches[token]` record. -/
structure SearchRecord where
  term : String
  started_at : Nat
  results : Nat
  deriving DecidableEq, Repr

/-- Audio attribute data attached to a search-result file.  The external
parser `FileListMessage.parse_audio_quality_length` (in
`pynicotine/slskmessages.py`, outside `daemon/`) is modelled as returning
these two human-readable strings directly; an empty string stands for a
missing component (falsy in the source). -/
structure AudioAttrs where
  h_quality : String
  h_length : String
  deriving DecidableEq, Repr

/-- One element of the engine's `msg.list` file listing: a tuple
`(code, name, size, ext, attrs)`.  The source only reads components
1 (`name`), 2 (`size`) and 4 (`attrs`). -/
structure FileInfo where
  code : Nat
  name : String
  size : Nat
  ext : String
  attrs : Option AudioAttrs
  deriving DecidableEq, Repr

/-- One dict appended to `self.search_results[token]` by
`add_search_results`.  `free_slots`, `speed` and `inqueue` are opaque
pass-through values from the engine's search-response message; nothing in the
verified code inspects them, so they are modelled as `Nat`. -/
structure ResultEntry where
  user : String
  path : String
  size : Nat
  free_slots : Nat
  speed : Nat
  inqueue : Nat
  attributes : String
  deriving DecidableEq, Repr

/-- The search-registry slice of `DaemonState`. -/
structure DaemonState where
  searches : List (Nat × SearchRecord)
  search_results : List (Nat × List ResultEntry)
  search_terms : List (String × Nat)
  max_search_results : Nat
  deriving DecidableEq, Repr

/-- `DaemonState.__init__`: empty registries, `max_search_results = 500`. -/
def initialState : DaemonState :=
  { searches := [], search_results := [], search_terms := [], max_search_results := 500 }

/-- Modelled from the spec: the session engine (`core.search`, outside the
`daemon/` sources) assigns one fresh, monotonically increasing token per
issued search — §6 "issue-search(term) → token", with the Term→Token index
"bijective while the token is alive". -/
structure Engine where
  nextToken : Nat
  deriving DecidableEq, Repr

/-- Modelled from the spec: `core.search.do_search` starts a search and the
engine exposes the newly assigned token as `core.search.token`. -/
def Engine.doSearch (e : Engine) : Nat × Engine :=
  (e.nextToken, { nextToken := e.nextToken + 1 })

/-- `DaemonState.request_search`: schedule `_start_search_main_thread` on the
owner thread and wait (3 s) for the token.  `delivered` tells whether the
owner-thread callback filled the pending slot before the caller popped it;
when it did not, the caller reads back `None`. -/
def requestSearch (e : Engine) (delivered : Bool) : Option Nat × Engine :=
  let (tok, e') := e.doSearch
  (if delivered then some tok else none, e')

/-- `DaemonState.add_search` (driven by the engine's "add-search" event). -/
def addSearch (s : DaemonState) (token : Nat) (term : String) (now : Nat) : DaemonState :=
  let s' := { s with
    searches := alSet s.searches token ⟨term, now, 0⟩,
    search_results := alSetD s.search_results token [] }
  if term ≠ "" then
    { s' with search_terms := alSet s'.search_terms (lowerStr term) token }
  else s'

/-- `DaemonState.remove_search`. -/
def removeSearch (s : DaemonState) (token : Nat) : DaemonState :=
  let record? := alGet s.searches token
  let s' := { s with
    searches := alErase s.searches token,
    search_results := alErase s.search_results token }
  match record? with
  | none => s'
  | some record =>
      if record.term ≠ "" then
        { s' with search_terms := alErase s'.search_terms (lowerStr record.term) }
      else s'

/-- `DaemonState.remove_search_term`. -/
def removeSearchTerm (s : DaemonState) (term : String) : DaemonState :=
  match alGet s.search_terms (lowerStr term) with
  | none => s
  | some token => removeSearch s token

/-- `DaemonState.ensure_search`.  Returns the token (or `none`), the updated
registry and the updated engine. -/
def ensureSearch (s : DaemonState) (e : Engine) (delivered : Bool) (now : Nat)
    (term : String) : Option Nat × DaemonState × Engine :=
  let cleanTerm := stripStr term
  if cleanTerm = "" then (none, s, e)
  else
    let key := lowerStr cleanTerm
    match alGet s.search_terms key with
    | some token => (some token, s, e)
    | none =>
        match requestSearch e delivered with
        | (none, e') => (none, s, e')
        | (some token, e') =>
            let s₁ := { s with search_terms := alSet s.search_terms key token }
            let s₂ :=
              match alGet s₁.searches token with
              | some _ => s₁
              | none =>
                  { s₁ with
                    searches := alSet s₁.searches token ⟨cleanTerm, now, 0⟩,
                    search_results := alSetD s₁.search_results token [] }
            (some token, s₂, e')

/-- The `attributes_text` computation in `add_search_results` (the branch on
the parsed quality/length strings; empty string is falsy in the source). -/
def attributesText (attrs : Option AudioAttrs) : String :=
  match attrs with
  | none => ""
  | some a =>
      if a.h_quality ≠ "" ∧ a.h_length ≠ "" then a.h_quality ++ ", " ++ a.h_length
      else if a.h_quality ≠ "" then a.h_quality
      else if a.h_length ≠ "" then a.h_length
      else ""

/-- The dict built for one `fileinfo` in the `add_search_results` loop. -/
def entryOfFileInfo (username : String) (free_slots : Nat) (speed inqueue : Nat)
    (fi : FileInfo) : ResultEntry :=
  { user := username, path := fi.name, size := fi.size, free_slots := free_slots,
    speed := speed, inqueue := inqueue, attributes := attributesText fi.attrs }

/-- `DaemonState.add_search_results`. -/
def addSearchResults (s : DaemonState) (token : Nat) (username : String)
    (results : List FileInfo) (free_slots : Nat) (speed inqueue : Nat) : DaemonState :=
  if results = [] then s
  else
    match alGet s.searches token with
    | none => s
    | some record =>
        let items := (alGet s.search_results token).getD []
        let s₁ := { s with search_results := alSetD s.search_results token [] }
        if s.max_search_results ≤ items.length then s₁
        else
          let newItems :=
            items ++ (results.take (s.max_search_results - items.length)).map
              (entryOfFileInfo username free_slots speed inqueue)
          { s₁ with
            search_results := alSet s₁.search_results token newItems,
            searches := alSet s₁.searches token { record with results := newItems.length } }

/-- Length of a token's result bucket (`len(self.search_results.get(token, []))`). -/
def bucketLen (s : DaemonState) (token : Nat) : Nat :=
  ((alGet s.search_results token).getD []).length

/-! ## Tree nodes (trees.py)

The source represents nodes as dicts `{"name", "type", "children", ...}` with
`type ∈ {"root", "dir", "file"}`; file nodes built by `build_search_tree`
additionally carry `user`, `speed`, `free_slots`, `attributes`.  We model this
as a tagged variant; the search-specific extras are an optional record so the
same node type serves all three builders. -/

/-- Extra fields on file leaves produced by `build_search_tree`. -/
structure FileExtra where
  user : String
  speed : Nat
  free_slots : Nat
  attributes : String
  deriving DecidableEq, Repr

/-- A tree node: `{"type": "root"|"dir"|"file", ...}`. -/
inductive Node where
  | root (children : List Node)
  | dir (name : String) (children : List Node)
  | file (name : String) (size : Nat) (path : String) (extra : Option FileExtra)
  deriving Repr

/-- `child.get("name", "")`. -/
def nodeName : Node → String
  | .root _ => ""
  | .dir n _ => n
  | .file n _ _ _ => n

/-- First component of the sort key: `0 if child.get("type") == "dir" else 1`. -/
def nodeRank : Node → Nat
  | .dir _ _ => 0
  | _ => 1

/-- Non-strict total preorder on nodes matching the sort key
`(0 if dir else 1, name.lower())` of `_sort_tree`. -/
def nodeKeyLe (a b : Node) : Bool :=
  nodeRank a < nodeRank b ||
    (nodeRank a = nodeRank b && strLe (lowerStr (nodeName a)) (lowerStr (nodeName b)))

/-- Insert into an already ordered list, before the first element that `a` may
precede; identical to the placement a stable ascending sort gives. -/
def orderedInsertNode (a : Node) : List Node → List Node
  | [] => [a]
  | b :: l => if nodeKeyLe a b then a :: b :: l else b :: orderedInsertNode a l

/-- Stable ascending sort by `nodeKeyLe`, modelling Python's stable
`children.sort(key=...)`: a stable sort with respect to a total preorder is
unique, so this insertion sort produces exactly the list `list.sort` does. -/
def sortChildren : List Node → List Node
  | [] => []
  | a :: l => orderedInsertNode a (sortChildren l)

mutual

/-- `_sort_tree`: sort every `children` list recursively.  The source sorts a
node's children first and then recurses into the `dir` children; here the
recursion is done first so the definition is structural.  The two orders give
the same tree because recursion changes neither a child's `type` nor its
`name`, hence not its sort key, and the stable sort's output depends only on
the keys and the input order.  (Recursing into `file` leaves is the identity,
matching the source's skipping them.) -/
def sortTree : Node → Node
  | .root cs => .root (sortChildren (sortForest cs))
  | .dir n cs => .dir n (sortChildren (sortForest cs))
  | .file n sz p ex => .file n sz p ex

def sortForest : List Node → List Node
  | [] => []
  | c :: cs => sortTree c :: sortForest cs
end

/-- `_find_child_dir(node, name)` on a children list. -/
def findChildDir (children : List Node) (name : String) : Option Node :=
  children.find? fun c =>
    match c with
    | .dir n _ => n = name
    | _ => false

/-! ### `build_search_tree` (trees.py)

The source mutates dict nodes in place through the `user_nodes` index and the
shared `root["children"]` list.  A `user_nodes` lookup coincides with finding
the `dir` child of the root with that name (user nodes are appended to both at
the same moment and nothing else adds root children), so the functional model
keeps only the root's children list and updates it. -/

/-- In-place mutation of a dict node held in an index: apply `f` to the
children of the first `dir` named `dirName` in the list. -/
def modifyDir (dirName : String) (f : List Node → List Node) : List Node → List Node
  | [] => []
  | c :: cs =>
      match c with
      | .dir n kids => if n = dirName then .dir n (f kids) :: cs
                       else c :: modifyDir dirName f cs
      | _ => c :: modifyDir dirName f cs

/-- The folder label for one search result: the path's segments after
dropping a leading `@`-marker segment, minus the file name, re-joined
(`"(root)"` when nothing remains). -/
def searchFolderLabel (parts : List String) : String :=
  let fp := joinBS parts.dropLast
  if fp = "" then "(root)" else fp

/-- `parts = path.split("\\")` followed by dropping a leading segment that
starts with `"@"`. -/
def markerDropped (path : String) : List String :=
  match splitBS path with
  | [] => []
  | p₀ :: rest => if startsWithAt p₀ then rest else p₀ :: rest

/-- The inner half of the `build_search_tree` loop body: inside a user node's
children, find-or-create the single `dir` labelled with the whole folder path
and append the file leaf to it. -/
def addFileToUser (folderPath : String) (leaf : Node) (userKids : List Node) :
    List Node :=
  let userKids' :=
    match findChildDir userKids folderPath with
    | some _ => userKids
    | none => userKids ++ [Node.dir folderPath []]
  modifyDir folderPath (fun folderKids => folderKids ++ [leaf]) userKids'

/-- The user-node step of the `build_search_tree` loop: reuse the `dir` for
this user when the `user_nodes` index has it (equivalently, when the root has
a `dir` child of that name), else create it appended at the end. -/
def ensureUserDir (cs : List Node) (u : String) : List Node :=
  match findChildDir cs u with
  | some _ => cs
  | none => cs ++ [Node.dir u []]

/-- The body of the `for entry in results` loop of `build_search_tree`,
acting on the root's children list. -/
def processEntry (children : List Node) (entry : ResultEntry) : List Node :=
  if entry.user = "" ∨ entry.path = "" then children
  else
    let children := ensureUserDir children entry.user
    let parts := markerDropped entry.path
    match parts.getLast? with
    | none => children
    | some filename =>
        let folderPath := searchFolderLabel parts
        let leaf : Node := .file filename entry.size entry.path
          (some ⟨entry.user, entry.speed, entry.free_slots, entry.attributes⟩)
        modifyDir entry.user (addFileToUser folderPath leaf) children

/-- `build_search_tree(results)` (trees.py). -/
def buildSearchTree (results : List ResultEntry) : Option Node :=
  if results = [] then none
  else some (sortTree (.root (results.foldl processEntry [])))

/-- `DaemonState.build_search_tree(token)` (state.py): snapshot the bucket and
delegate. -/
def stateBuildSearchTree (s : DaemonState) (token : Nat) : Option Node :=
  buildSearchTree ((alGet s.search_results token).getD [])

/-! ### `_build_tree_from_folder_map` (trees.py)

The source's `node_map` indexes the already-created `dir` node for each
accumulated path of non-empty segments; because segment names cannot contain
the separator, that node is exactly the one reached by walking the forest by
segment names, so the functional model walks instead of indexing.  New `dir`
nodes and file leaves are appended at the end of a `children` list, as in the
source. -/

/-- One file tuple from a browse listing: `(code, name, size, ...)`; the
builder reads components 1 and 2 and skips tuples shorter than 3 (such tuples
do not arise in this model, so the `len(file_data) < 3` guard is vacuous). -/
structure BrowseFile where
  code : Nat
  name : String
  size : Nat
  deriving DecidableEq, Repr

/-- A value of the `folder_map` argument: either a plain file list or the
annotated dict `{"full_path": ..., "files": ...}` (with `full_path` possibly
absent, i.e. `None`). -/
inductive FolderVal where
  | plain (files : List BrowseFile)
  | tagged (full_path : Option String) (files : List BrowseFile)
  deriving DecidableEq, Repr

/-- The file's reconstructed canonical path: `original_folder_path` when
truthy, else the (possibly stripped) `folder_path` when truthy, else the bare
basename. -/
def chooseFullPath (orig : Option String) (folderPath basename : String) : String :=
  match orig with
  | some op =>
      if op ≠ "" then op ++ "\x5c" ++ basename
      else if folderPath ≠ "" then folderPath ++ "\x5c" ++ basename
      else basename
  | none =>
      if folderPath ≠ "" then folderPath ++ "\x5c" ++ basename
      else basename

/-- The walk of the `for part in parts` loop plus the trailing file append:
descend along the non-empty segments — reusing the existing `dir` child of
that name when the accumulated path is already indexed in `node_map`, else
creating it appended at the end of the current children list — then append
the file leaves at the final node. -/
def insertFolder (cs : List Node) (segs : List String) (leaves : List Node) :
    List Node :=
  match segs with
  | [] => cs ++ leaves
  | seg :: rest =>
      if seg = "" then insertFolder cs rest leaves
      else
        match findChildDir cs seg with
        | some _ => modifyDir seg (fun kids => insertFolder kids rest leaves) cs
        | none => cs ++ [Node.dir seg (insertFolder [] rest leaves)]

/-- `_build_tree_from_folder_map(folder_map)`. -/
def buildTreeFromFolderMap (folder_map : List (String × FolderVal)) : Node :=
  let children := folder_map.foldl (fun cs fpv =>
    let folderPath := fpv.1
    let (orig, files) :=
      match fpv.2 with
      | .plain fs => ((none : Option String), fs)
      | .tagged op fs => (op, fs)
    let parts := if folderPath ≠ "" then splitBS folderPath else []
    let leaves := files.map fun fd =>
      Node.file fd.name fd.size (chooseFullPath orig folderPath fd.name) none
    insertFolder cs parts leaves) []
  sortTree (.root children)

/-! ### `build_user_tree` (trees.py) -/

/-- The slice of `core.userbrowse.users[username]` the builder reads: the two
folder-path-keyed listing collections. -/
structure BrowsedUser where
  public_folders : List (String × List BrowseFile)
  private_folders : List (String × List BrowseFile)
  deriving DecidableEq, Repr

/-- The `folder_map` assembly loop of `build_user_tree`: strip a leading
`@`-marker segment when `hide_at_root`, remember the original path, and let a
later binding of the same (stripped) key overwrite an earlier one. -/
def userFolderMap (folders : List (String × List BrowseFile)) (hide_at_root : Bool)
    (acc : List (String × FolderVal)) : List (String × FolderVal) :=
  folders.foldl (fun acc fp =>
    let originalPath := fp.1
    let folderPath :=
      if hide_at_root ∧ fp.1 ≠ "" then
        match splitBS fp.1 with
        | [] => fp.1
        | p₀ :: rest => if startsWithAt p₀ then joinBS rest else fp.1
      else fp.1
    alSet acc folderPath (.tagged (some originalPath) fp.2)) acc

/-- `build_user_tree(username, hide_at_root)`, as a function of the browsed
user found in `core.userbrowse.users` (`none` when the user is unknown). -/
def buildUserTree (browsedUser : Option BrowsedUser) (hide_at_root : Bool) :
    Option Node :=
  match browsedUser with
  | none => none
  | some bu =>
      let fm := userFolderMap bu.private_folders hide_at_root
        (userFolderMap bu.public_folders hide_at_root [])
      if fm = [] then none else some (buildTreeFromFolderMap fm)

/-! ## `request_user_tree` (state.py)

The two bounded waits are modelled by their observable outcomes: the status
the browse-state table holds when the 30 s wait returns, and whether the
owner-thread serialization callback filled the pending slot before the caller
popped it (`delivered`).  The `if not result` branch of the source is
unreachable — the caller is the only thread that pops its own request id and
the popped pending dict is never empty — so the model returns the pending
slot's contents directly. -/

/-- The values `self._user_browse_status` can hold (written only by
`_get_user_browse_event`, `notify_user_browse` and
`notify_user_browse_not_found`). -/
inductive BrowseStatus where
  | loading
  | ready
  | not_found
  deriving DecidableEq, Repr

/-- The response dict of `request_user_tree`: either the early
`{"status": "not_found"}` (no tree key) or `{"status": ..., "tree": ...}`. -/
inductive UserTreeResp where
  | notFoundResp
  | resp (status : String) (tree : Option Node)
  deriving Repr

/-- The `"status"` field of a response. -/
def UserTreeResp.statusStr : UserTreeResp → String
  | .notFoundResp => "not_found"
  | .resp s _ => s

/-- Whether a response carries a tree (`"tree"` key present and not `None`). -/
def UserTreeResp.hasTree : UserTreeResp → Bool
  | .notFoundResp => false
  | .resp _ t => t.isSome

/-- `_get_user_tree_main_thread`, as a function of the owner-thread data it
reads: the resolved local login name and the `core.userbrowse.users` table. -/
def getUserTreeMainThread (localUsername : String)
    (users : List (String × BrowsedUser)) (username : String) (isLocal : Bool) :
    Option Node × String :=
  if isLocal then
    if localUsername = "" then (none, "error")
    else
      let tree := buildUserTree (alGet users localUsername) false
      (tree, if tree.isSome then "ready" else "loading")
  else
    if username = "" then (none, "error")
    else
      let tree := buildUserTree (alGet users username) true
      (tree, if tree.isSome then "ready" else "loading")

/-- `DaemonState.request_user_tree(username, local)`.  `statusAfterWait` is
the browse-state table entry for the key when the first wait returns;
`delivered` is whether the second (3 s) bridged round trip completed before
the caller popped its pending slot. -/
def requestUserTree (statusAfterWait : BrowseStatus) (delivered : Bool)
    (localUsername : String) (users : List (String × BrowsedUser))
    (username : String) (isLocal : Bool) : UserTreeResp :=
  if statusAfterWait = .not_found then .notFoundResp
  else
    if delivered then
      let (tree, status) := getUserTreeMainThread localUsername users username isLocal
      .resp status tree
    else
      .resp "loading" none

/-! ## Downloads snapshot (state.py)

`_downloads_snapshot_main_thread` runs on the owner thread; the filesystem
(`os.path.exists`) and the engine's completed-path computation
(`core.downloads.get_complete_download_file_path`) are oracles passed in as
functions. -/

/-- The slice of an engine `Transfer` object the snapshot reads.
`current_byte_offset` and `folder_path` may be `None`. -/
structure Transfer where
  username : String
  virtual_path : String
  status : String
  size : Nat
  current_byte_offset : Option Nat
  folder_path : Option String
  deriving DecidableEq, Repr

/-- `TransferStatus.FINISHED` (from `pynicotine/transfers.py`, outside
`daemon/`): the status string marking a completed transfer. -/
def finishedStatus : String := "Finished"

/-- One dict of the snapshot's `downloads` list. -/
structure DownloadEntry where
  user : String
  path : String
  virtual_path : String
  status : String
  size : Nat
  offset : Nat
  folder : String
  local_path : Option String
  deriving DecidableEq, Repr

/-- The local-path resolution for one finished transfer: the recorded
override when truthy and still on disk, else the engine's conventional
completed path when it exists, else `None`. -/
def resolveLocalPath (fsExists : String → Bool)
    (completePath : String → String → Nat → Option String → String × Bool)
    (override? : Option String) (t : Transfer) : Option String :=
  match override? with
  | some ov =>
      if ov ≠ "" ∧ fsExists ov then some ov
      else
        let (p, ex) := completePath t.username t.virtual_path t.size t.folder_path
        if ex then some p else none
  | none =>
      let (p, ex) := completePath t.username t.virtual_path t.size t.folder_path
      if ex then some p else none

/-- The body of the `for transfer in ...` loop of
`_downloads_snapshot_main_thread`: build the entry and clear the override
when a finished transfer resolved to no local path.  `overrides` is
`self.download_path_overrides` keyed by `username + virtual_path`. -/
def downloadsSnapshotStep (fsExists : String → Bool)
    (completePath : String → String → Nat → Option String → String × Bool)
    (overrides : List (String × String)) (t : Transfer) :
    DownloadEntry × List (String × String) :=
  let key := t.username ++ t.virtual_path
  let local_path :=
    if t.status = finishedStatus then
      resolveLocalPath fsExists completePath (alGet overrides key) t
    else none
  let overrides' :=
    if local_path = none ∧ t.status = finishedStatus then alErase overrides key
    else overrides
  (⟨t.username, t.virtual_path, t.virtual_path, t.status, t.size,
    t.current_byte_offset.getD 0, t.folder_path.getD "", local_path⟩, overrides')

/-- `_downloads_snapshot_main_thread` over the whole transfer list, threading
the override table through the loop. -/
def downloadsSnapshot (fsExists : String → Bool)
    (completePath : String → String → Nat → Option String → String × Bool)
    (overrides : List (String × String)) :
    List Transfer → List DownloadEntry × List (String × String)
  | [] => ([], overrides)
  | t :: ts =>
      let (entry, overrides') := downloadsSnapshotStep fsExists completePath overrides t
      let (rest, overrides'') := downloadsSnapshot fsExists completePath overrides' ts
      (entry :: rest, overrides'')

/-! ## Auxiliary notions used by the statements -/

/-- One `add_search_results` call's arguments. -/
structure AddCall where
  token : Nat
  username : String
  results : List FileInfo
  free_slots : Nat
  speed : Nat
  inqueue : Nat

/-- A sequence of `add_search_results` calls applied in order. -/
def applyCalls (s : DaemonState) (calls : List AddCall) : DaemonState :=
  calls.foldl (fun s c =>
    addSearchResults s c.token c.username c.results c.free_slots c.speed c.inqueue) s

/-- Key uniqueness of an association list (all dict models built by the
operations satisfy it). -/
def alWF {K V : Type} (m : List (K × V)) : Prop := (m.map Prod.fst).Nodup

/-- The invariant linking the registry's term index to the engine: every
mapped token came from the engine (hence is below its fresh counter), and no
two distinct keys share a token.  It holds initially and is preserved by
`ensure_search`; the engine's freshness is the spec-modelled part. -/
def TermIndexOK (s : DaemonState) (e : Engine) : Prop :=
  (∀ k tok, alGet s.search_terms k = some tok → tok < e.nextToken) ∧
  (∀ k₁ k₂ tok, alGet s.search_terms k₁ = some tok →
    alGet s.search_terms k₂ = some tok → k₁ = k₂)

/-- The claim's children-ordering property: directories before files, and
within rank groups case-insensitive names ascending. -/
def ChildrenOrdered (cs : List Node) : Prop :=
  cs.Pairwise fun a b => nodeRank a ≤ nodeRank b ∧
    (nodeRank a = nodeRank b →
      strLe (lowerStr (nodeName a)) (lowerStr (nodeName b)) = true)

mutual

/-- The claim's tree-ordering invariant, recursively at every node. -/
def WellOrdered : Node → Prop
  | .root cs => ChildrenOrdered cs ∧ ForestWellOrdered cs
  | .dir _ cs => ChildrenOrdered cs ∧ ForestWellOrdered cs
  | .file _ _ _ _ => True

/-- `WellOrdered` at every node of a forest. -/
def ForestWellOrdered : List Node → Prop
  | [] => True
  | c :: cs => WellOrdered c ∧ ForestWellOrdered cs
end

/-- Whether a node is a `dir` with the given name. -/
def isDirNamed (name : String) : Node → Bool
  | .dir n _ => n = name
  | _ => false

/-- How many `dir` children of the list carry the given name. -/
def countDirsNamed (cs : List Node) (name : String) : Nat :=
  (cs.filter fun c => isDirNamed name c).length

/-- The forest contains a `dir` named `u` holding a `dir` named `fp` holding
`leaf`. -/
def HasUFF (cs : List Node) (u fp : String) (leaf : Node) : Prop :=
  ∃ ukids, Node.dir u ukids ∈ cs ∧
    ∃ fkids, Node.dir fp fkids ∈ ukids ∧ leaf ∈ fkids

/-- At most one `dir` of each name in the list. -/
def TopDirsUnique (cs : List Node) : Prop :=
  ∀ name, countDirsNamed cs name ≤ 1

/-- Every `dir` in the list has at most one `dir` of each name among its own
children. -/
def InnerDirsUnique (cs : List Node) : Prop :=
  ∀ c ∈ cs, ∀ u kids, c = Node.dir u kids → ∀ fp, countDirsNamed kids fp ≤ 1

/-! ## Lemmas and claim theorems -/

theorem alGet_alSet_self {K V : Type} [DecidableEq K] (m : List (K × V)) (k : K) (v : V) :
    alGet (alSet m k v) k = some v := by
  induction m with
  | nil => simp [alSet, alGet]
  | cons p m ih =>
    obtain ⟨k', v'⟩ := p
    by_cases h : k' = k
    · simp [alSet, alGet, h]
    · simp [alSet, alGet, h, ih]

theorem alGet_alSet_ne {K V : Type} [DecidableEq K] (m : List (K × V)) (k k' : K) (v : V)
    (h : k ≠ k') : alGet (alSet m k v) k' = alGet m k' := by
  induction m with
  | nil => simp [alSet, alGet, h]
  | cons p m ih =>
    obtain ⟨k₀, v₀⟩ := p
    by_cases h₀ : k₀ = k
    · subst h₀
      simp [alSet, alGet, h]
    · simp [alSet, alGet, h₀, ih]

theorem alGet_alSetD {K V : Type} [DecidableEq K] (m : List (K × V)) (k : K) (v : V) :
    alGet (alSetD m k v) k = some ((alGet m k).getD v) := by
  unfold alSetD
  cases h : alGet m k with
  | some w => simp [h]
  | none => simp [alGet_alSet_self]

theorem alGet_alSetD_ne {K V : Type} [DecidableEq K] (m : List (K × V)) (k k' : K) (v : V)
    (h : k ≠ k') : alGet (alSetD m k v) k' = alGet m k' := by
  unfold alSetD
  cases alGet m k with
  | some w => rfl
  | none => exact alGet_alSet_ne m k k' v h

theorem charListLe_total (a b : List Char) : charListLe a b = true ∨ charListLe b a = true := by
  induction a generalizing b with
  | nil => left; rfl
  | cons x xs ih =>
    cases b with
    | nil => right; rfl
    | cons y ys =>
      by_cases h₁ : x.toNat < y.toNat
      · left; simp [charListLe, h₁]
      · by_cases h₂ : y.toNat < x.toNat
        · right; simp [charListLe, h₂]
        · rcases ih ys with h | h
          · left; simp [charListLe, h₁, h₂, h]
          · right; simp [charListLe, h₁, h₂, h]

theorem charListLe_trans {a b c : List Char} (hab : charListLe a b = true)
    (hbc : charListLe b c = true) : charListLe a c = true := by
  induction a generalizing b c with
  | nil => rfl
  | cons x xs ih =>
    cases b with
    | nil => simp [charListLe] at hab
    | cons y ys =>
      cases c with
      | nil => simp [charListLe] at hbc
      | cons z zs =>
        by_cases hxy : x.toNat < y.toNat
        · by_cases hyz : y.toNat < z.toNat
          · simp [charListLe, Nat.lt_trans hxy hyz]
          · by_cases hzy : z.toNat < y.toNat
            · simp [charListLe, hyz, hzy] at hbc
            · have hyz' : y.toNat = z.toNat := Nat.le_antisymm (Nat.le_of_not_lt hzy) (Nat.le_of_not_lt hyz)
              simp [charListLe, hyz' ▸ hxy]
        · by_cases hyx : y.toNat < x.toNat
          · simp [charListLe, hxy, hyx] at hab
          · have hxy' : x.toNat = y.toNat := Nat.le_antisymm (Nat.le_of_not_lt hyx) (Nat.le_of_not_lt hxy)
            by_cases hyz : y.toNat < z.toNat
            · simp [charListLe, hxy' ▸ hyz]
            · by_cases hzy : z.toNat < y.toNat
              · simp [charListLe, hyz, hzy] at hbc
              · simp [charListLe, hxy, hyx] at hab
                simp [charListLe, hyz, hzy] at hbc
                have hxz : ¬ x.toNat < z.toNat := by
                  rw [hxy']; exact hyz
                have hzx : ¬ z.toNat < x.toNat := by
                  rw [hxy']; exact hzy
                simp [charListLe, hxz, hzx, ih hab hbc]

theorem strLe_total (a b : String) : strLe a b = true ∨ strLe b a = true :=
  charListLe_total a.data b.data

theorem strLe_trans {a b c : String} (hab : strLe a b = true) (hbc : strLe b c = true) :
    strLe a c = true :=
  charListLe_trans hab hbc

theorem alGet_alErase_self {K V : Type} [DecidableEq K] (m : List (K × V)) (k : K)
    (hwf : alWF m) : alGet (alErase m k) k = none := by
  induction m with
  | nil => rfl
  | cons p m ih =>
    obtain ⟨k₀, v₀⟩ := p
    simp only [alWF, List.map_cons, List.nodup_cons] at hwf
    by_cases h : k₀ = k
    · subst h
      cases hget : alGet m k₀ with
      | none => simpa [alErase] using hget
      | some w =>
          exfalso
          apply hwf.1
          clear ih hwf
          induction m with
          | nil => simp [alGet] at hget
          | cons q m ih₂ =>
              obtain ⟨k₁, v₁⟩ := q
              by_cases h₁ : k₁ = k₀
              · subst h₁; simp
              · simp only [alGet, if_neg h₁] at hget
                simp [ih₂ hget]
    · simp [alErase, h, alGet, ih hwf.2]

theorem alGet_alErase_ne {K V : Type} [DecidableEq K] (m : List (K × V)) (k k' : K)
    (h : k ≠ k') : alGet (alErase m k) k' = alGet m k' := by
  induction m with
  | nil => rfl
  | cons p m ih =>
    obtain ⟨k₀, v₀⟩ := p
    by_cases h₀ : k₀ = k
    · subst h₀; simp [alErase, alGet, h]
    · simp [alErase, h₀, alGet, ih]

/-! ## Sortedness machinery for `_sort_tree` -/

theorem nodeKeyLe_total (a b : Node) : nodeKeyLe a b = true ∨ nodeKeyLe b a = true := by
  unfold nodeKeyLe
  rcases Nat.lt_trichotomy (nodeRank a) (nodeRank b) with h | h | h
  · left; simp [h]
  · rcases strLe_total (lowerStr (nodeName a)) (lowerStr (nodeName b)) with hs | hs
    · left; simp [h, hs]
    · right; simp [h.symm, hs]
  · right; simp [h]

theorem nodeKeyLe_trans {a b c : Node} (hab : nodeKeyLe a b = true)
    (hbc : nodeKeyLe b c = true) : nodeKeyLe a c = true := by
  unfold nodeKeyLe at *
  simp only [Bool.or_eq_true, decide_eq_true_eq, Bool.and_eq_true] at *
  rcases hab with hab | ⟨hab, hab'⟩ <;> rcases hbc with hbc | ⟨hbc, hbc'⟩
  · exact Or.inl (Nat.lt_trans hab hbc)
  · exact Or.inl (hbc ▸ hab)
  · exact Or.inl (hab ▸ hbc)
  · exact Or.inr ⟨hab.trans hbc, strLe_trans hab' hbc'⟩

theorem mem_orderedInsertNode {a x : Node} {l : List Node} :
    x ∈ orderedInsertNode a l ↔ x = a ∨ x ∈ l := by
  induction l with
  | nil => simp [orderedInsertNode]
  | cons b l ih =>
    by_cases h : nodeKeyLe a b = true
    · simp [orderedInsertNode, h]
    · simp only [orderedInsertNode, if_neg h, List.mem_cons, ih]
      tauto

theorem mem_sortChildren {x : Node} {l : List Node} :
    x ∈ sortChildren l ↔ x ∈ l := by
  induction l with
  | nil => simp [sortChildren]
  | cons a l ih => simp [sortChildren, mem_orderedInsertNode, ih]

theorem perm_sortChildren (l : List Node) : (sortChildren l).Perm l := by
  induction l with
  | nil => simp [sortChildren]
  | cons a l ih =>
    have : (orderedInsertNode a (sortChildren l)).Perm (a :: sortChildren l) := by
      clear ih
      induction sortChildren l with
      | nil => simp [orderedInsertNode]
      | cons b m ih₂ =>
        by_cases h : nodeKeyLe a b = true
        · simp [orderedInsertNode, h]
        · simp only [orderedInsertNode, if_neg h]
          exact (ih₂.cons b).trans (List.Perm.swap a b m)
    exact this.trans (ih.cons a)

theorem pairwise_orderedInsertNode {a : Node} {l : List Node}
    (hl : l.Pairwise fun x y => nodeKeyLe x y = true) :
    (orderedInsertNode a l).Pairwise fun x y => nodeKeyLe x y = true := by
  induction l with
  | nil => simp [orderedInsertNode]
  | cons b l ih =>
    by_cases h : nodeKeyLe a b = true
    · simp only [orderedInsertNode, if_pos h]
      refine List.Pairwise.cons ?_ hl
      intro x hx
      rcases List.mem_cons.mp hx with rfl | hx
      · exact h
      · exact nodeKeyLe_trans h (List.rel_of_pairwise_cons hl hx)
    · have hba : nodeKeyLe b a = true := (nodeKeyLe_total a b).resolve_left h
      simp only [orderedInsertNode, if_neg h]
      refine List.Pairwise.cons ?_ (ih (List.Pairwise.sublist (List.sublist_cons_self b l) hl))
      intro x hx
      rcases mem_orderedInsertNode.mp hx with rfl | hx
      · exact hba
      · exact List.rel_of_pairwise_cons hl hx

theorem pairwise_sortChildren (l : List Node) :
    (sortChildren l).Pairwise fun x y => nodeKeyLe x y = true := by
  induction l with
  | nil => simp [sortChildren]
  | cons a l ih => exact pairwise_orderedInsertNode ih

theorem childrenOrdered_of_keyLe {cs : List Node}
    (h : cs.Pairwise fun x y => nodeKeyLe x y = true) : ChildrenOrdered cs := by
  refine h.imp ?_
  intro a b hk
  unfold nodeKeyLe at hk
  simp only [Bool.or_eq_true, decide_eq_true_eq, Bool.and_eq_true] at hk
  rcases hk with hk | ⟨hk, hk'⟩
  · exact ⟨Nat.le_of_lt hk, fun he => absurd he (Nat.ne_of_lt hk)⟩
  · exact ⟨Nat.le_of_eq hk, fun _ => hk'⟩

theorem forestWellOrdered_iff {cs : List Node} :
    ForestWellOrdered cs ↔ ∀ c ∈ cs, WellOrdered c := by
  induction cs with
  | nil => simp [ForestWellOrdered]
  | cons c cs ih => simp [ForestWellOrdered, ih]

theorem nodeRank_sortTree (c : Node) : nodeRank (sortTree c) = nodeRank c := by
  cases c <;> simp [sortTree, nodeRank]

theorem nodeName_sortTree (c : Node) : nodeName (sortTree c) = nodeName c := by
  cases c <;> simp [sortTree, nodeName]

theorem mem_sortForest {x : Node} {cs : List Node} :
    x ∈ sortForest cs ↔ ∃ c ∈ cs, x = sortTree c := by
  induction cs with
  | nil => simp [sortForest]
  | cons c cs ih =>
    simp only [sortForest, List.mem_cons, ih]
    constructor
    · rintro (rfl | ⟨d, hd, rfl⟩)
      · exact ⟨c, Or.inl rfl, rfl⟩
      · exact ⟨d, Or.inr hd, rfl⟩
    · rintro ⟨d, rfl | hd, rfl⟩
      · exact Or.inl rfl
      · exact Or.inr ⟨d, hd, rfl⟩

theorem wellOrdered_sortTree_aux :
    ∀ k (n : Node), sizeOf n ≤ k → WellOrdered (sortTree n) := by
  intro k
  induction k with
  | zero =>
      intro n hn
      exfalso
      cases n <;> simp at hn
  | succ k ih =>
      intro n hn
      cases n with
      | file nm sz p ex => simp [sortTree, WellOrdered]
      | root cs =>
          simp only [sortTree, WellOrdered]
          refine ⟨childrenOrdered_of_keyLe (pairwise_sortChildren _), ?_⟩
          rw [forestWellOrdered_iff]
          intro c hc
          rw [mem_sortChildren, mem_sortForest] at hc
          obtain ⟨d, hd, rfl⟩ := hc
          apply ih
          have h1 : sizeOf d < sizeOf cs := List.sizeOf_lt_of_mem hd
          have h2 : sizeOf (Node.root cs) = 1 + sizeOf cs := by simp
          omega
      | dir nm cs =>
          simp only [sortTree, WellOrdered]
          refine ⟨childrenOrdered_of_keyLe (pairwise_sortChildren _), ?_⟩
          rw [forestWellOrdered_iff]
          intro c hc
          rw [mem_sortChildren, mem_sortForest] at hc
          obtain ⟨d, hd, rfl⟩ := hc
          apply ih
          have h1 : sizeOf d < sizeOf cs := List.sizeOf_lt_of_mem hd
          have h2 : sizeOf (Node.dir nm cs) = 1 + sizeOf nm + sizeOf cs := by simp
          omega

/-- Every tree `_sort_tree` leaves behind satisfies the ordering invariant. -/
theorem wellOrdered_sortTree (n : Node) : WellOrdered (sortTree n) :=
  wellOrdered_sortTree_aux (sizeOf n) n (Nat.le_refl _)

/-! ## Claim theorems -/

/-- C4: `build_search_tree` on a token whose result bucket has zero entries
(including an unknown or removed token) returns the "no data" sentinel
(`none`), which is distinct from an empty-but-present root tree. -/
theorem build_search_tree_no_data_sentinel :
    (∀ (s : DaemonState) (token : Nat),
        (alGet s.search_results token).getD [] = [] →
        stateBuildSearchTree s token = none) ∧
    buildSearchTree [] = none ∧
    (none : Option Node) ≠ some (.root []) := by
  refine ⟨?_, rfl, by simp⟩
  intro s token h
  unfold stateBuildSearchTree
  rw [h]
  rfl

/-- Witness for C4: in the freshly initialised registry every token is
unknown, so its tree is the sentinel, and the sentinel differs from the
empty root tree. -/
theorem build_search_tree_no_data_sentinel_witness :
    stateBuildSearchTree initialState 0 = none ∧
    (none : Option Node) ≠ some (.root []) :=
  ⟨build_search_tree_no_data_sentinel.1 initialState 0 rfl,
   build_search_tree_no_data_sentinel.2.2⟩

/-- C10: when the bridged search round trip yields no token (the pending
request's token slot still `None` after the bounded wait), `ensure_search` of
a non-empty, unmapped term returns `none` and leaves the whole registry
unchanged, so a later retry starts fresh. -/
theorem ensure_search_timeout_registry_unchanged :
    ∀ (s : DaemonState) (e : Engine) (now : Nat) (term : String),
      stripStr term ≠ "" →
      alGet s.search_terms (lowerStr (stripStr term)) = none →
      ensureSearch s e false now term = (none, s, e.doSearch.2) := by
  intro s e now term h1 h2
  simp [ensureSearch, h1, h2, requestSearch]

/-- Witness for C10 at the initial registry and the term `"Beatles"`. -/
theorem ensure_search_timeout_registry_unchanged_witness :
    ensureSearch initialState ⟨1⟩ false 0 "Beatles" = (none, initialState, ⟨2⟩) :=
  ensure_search_timeout_registry_unchanged initialState ⟨1⟩ 0 "Beatles"
    (by decide) rfl

theorem getUserTreeMainThread_status (lu : String)
    (users : List (String × BrowsedUser)) (un : String) (il : Bool) :
    (getUserTreeMainThread lu users un il).2 = "error" ∨
    (getUserTreeMainThread lu users un il).2 = "ready" ∨
    (getUserTreeMainThread lu users un il).2 = "loading" := by
  unfold getUserTreeMainThread
  split
  · split
    · simp
    · simp only []
      by_cases h : (buildUserTree (alGet users lu) false).isSome <;> simp [h]
  · split
    · simp
    · simp only []
      by_cases h : (buildUserTree (alGet users un) true).isSome <;> simp [h]

/-- C9: `request_user_tree` always returns one of the statuses `loading`,
`ready`, `not_found`, `error` (it is a total function, never a thrown
failure); a browse status resolved to `not_found` yields the bare
`{"status": "not_found"}` response immediately, independently of the second
round trip's oracles; and a timed-out second round trip yields status
`loading` with no tree. -/
theorem request_user_tree_status_total :
    ∀ (st : BrowseStatus) (delivered : Bool) (lu : String)
      (users : List (String × BrowsedUser)) (un : String) (il : Bool),
      ((requestUserTree st delivered lu users un il).statusStr = "loading" ∨
       (requestUserTree st delivered lu users un il).statusStr = "ready" ∨
       (requestUserTree st delivered lu users un il).statusStr = "not_found" ∨
       (requestUserTree st delivered lu users un il).statusStr = "error") ∧
      (st = .not_found →
        requestUserTree st delivered lu users un il = .notFoundResp) ∧
      (st ≠ .not_found → delivered = false →
        requestUserTree st delivered lu users un il = .resp "loading" none) := by
  intro st delivered lu users un il
  refine ⟨?_, ?_, ?_⟩
  · by_cases h : st = BrowseStatus.not_found
    · simp [requestUserTree, h, UserTreeResp.statusStr]
    · cases hd : delivered
      · simp [requestUserTree, h, hd, UserTreeResp.statusStr]
      · rcases getUserTreeMainThread_status lu users un il with hs | hs | hs <;>
          simp [requestUserTree, h, hd, UserTreeResp.statusStr, hs]
  · intro h; simp [requestUserTree, h]
  · intro h hd; simp [requestUserTree, h, hd]

/-- Witness for C9: a resolved `not_found` returns the bare response, and a
timed-out second round trip reports `loading`. -/
theorem request_user_tree_status_total_witness :
    requestUserTree .not_found true "me" [] "bob" false = .notFoundResp ∧
    requestUserTree .ready false "me" [] "bob" false = .resp "loading" none ∧
    ((requestUserTree .ready true "me" [] "bob" false).statusStr = "loading" ∨
     (requestUserTree .ready true "me" [] "bob" false).statusStr = "ready" ∨
     (requestUserTree .ready true "me" [] "bob" false).statusStr = "not_found" ∨
     (requestUserTree .ready true "me" [] "bob" false).statusStr = "error") :=
  ⟨(request_user_tree_status_total .not_found true "me" [] "bob" false).2.1 rfl,
   (request_user_tree_status_total .ready false "me" [] "bob" false).2.2
     (by simp) rfl,
   (request_user_tree_status_total .ready true "me" [] "bob" false).1⟩

/-- C7: in the downloads snapshot, a finished transfer's resolved local path
prefers a recorded override whose target still exists on disk, falls back to
the engine's conventional completed path when that exists, and is `None`
otherwise — and only in that last case the override entry for the transfer's
key is cleared.  The last conjunct ties the loop-body characterisation to the
snapshot of a transfer list. -/
theorem downloads_snapshot_finished_resolution :
    ∀ (fsExists : String → Bool)
      (cp : String → String → Nat → Option String → String × Bool)
      (ov : List (String × String)) (t : Transfer),
      t.status = finishedStatus →
      (∀ o, alGet ov (t.username ++ t.virtual_path) = some o →
        o ≠ "" → fsExists o = true →
        (downloadsSnapshotStep fsExists cp ov t).1.local_path = some o ∧
        (downloadsSnapshotStep fsExists cp ov t).2 = ov) ∧
      (∀ p, cp t.username t.virtual_path t.size t.folder_path = (p, true) →
        (∀ o, alGet ov (t.username ++ t.virtual_path) = some o →
          ¬(o ≠ "" ∧ fsExists o = true)) →
        (downloadsSnapshotStep fsExists cp ov t).1.local_path = some p ∧
        (downloadsSnapshotStep fsExists cp ov t).2 = ov) ∧
      ((cp t.username t.virtual_path t.size t.folder_path).2 = false →
        (∀ o, alGet ov (t.username ++ t.virtual_path) = some o →
          ¬(o ≠ "" ∧ fsExists o = true)) →
        (downloadsSnapshotStep fsExists cp ov t).1.local_path = none ∧
        (downloadsSnapshotStep fsExists cp ov t).2 =
          alErase ov (t.username ++ t.virtual_path)) ∧
      (∀ ts, downloadsSnapshot fsExists cp ov (t :: ts) =
        ((downloadsSnapshotStep fsExists cp ov t).1 ::
          (downloadsSnapshot fsExists cp
            (downloadsSnapshotStep fsExists cp ov t).2 ts).1,
         (downloadsSnapshot fsExists cp
           (downloadsSnapshotStep fsExists cp ov t).2 ts).2)) := by
  intro fsExists cp ov t hfin
  refine ⟨?_, ?_, ?_, ?_⟩
  · intro o ho hne hex
    simp [downloadsSnapshotStep, hfin, resolveLocalPath, ho, hne, hex]
  · intro p hcp hstale
    cases hov : alGet ov (t.username ++ t.virtual_path) with
    | none => simp [downloadsSnapshotStep, hfin, resolveLocalPath, hov, hcp]
    | some o =>
        have hno := hstale o hov
        simp [downloadsSnapshotStep, hfin, resolveLocalPath, hov, hno, hcp]
  · intro hcp hstale
    cases hov : alGet ov (t.username ++ t.virtual_path) with
    | none =>
        cases hc : cp t.username t.virtual_path t.size t.folder_path with
        | mk p ex =>
            rw [hc] at hcp
            simp at hcp
            subst hcp
            simp [downloadsSnapshotStep, hfin, resolveLocalPath, hov, hc]
    | some o =>
        have hno := hstale o hov
        cases hc : cp t.username t.virtual_path t.size t.folder_path with
        | mk p ex =>
            rw [hc] at hcp
            simp at hcp
            subst hcp
            simp [downloadsSnapshotStep, hfin, resolveLocalPath, hov, hno, hc]
  · intro ts
    simp [downloadsSnapshot]

/-- Witness for C7: a finished download whose recorded override has been
deleted from disk, with no conventional completed file either, reports
`local_path = none` and its override is cleared by the snapshot. -/
theorem downloads_snapshot_finished_resolution_witness :
    (downloadsSnapshotStep (fun _ => false) (fun _ _ _ _ => ("dl", false))
      [("aliceF", "old")] ⟨"alice", "F", "Finished", 9, none, none⟩).1.local_path
      = none ∧
    (downloadsSnapshotStep (fun _ => false) (fun _ _ _ _ => ("dl", false))
      [("aliceF", "old")] ⟨"alice", "F", "Finished", 9, none, none⟩).2 = [] := by
  have h := (downloads_snapshot_finished_resolution (fun _ => false)
    (fun _ _ _ _ => ("dl", false)) [("aliceF", "old")]
    ⟨"alice", "F", "Finished", 9, none, none⟩ rfl).2.2.1 rfl
    (by intro o ho; simp [alGet] at ho; simp [ho])
  exact ⟨h.1, by rw [h.2]; rfl⟩

theorem ensureSearch_empty (s : DaemonState) (e : Engine) (d : Bool) (now : Nat)
    (term : String) (h1 : stripStr term = "") :
    ensureSearch s e d now term = (none, s, e) := by
  simp [ensureSearch, h1]

theorem ensureSearch_mapped (s : DaemonState) (e : Engine) (d : Bool) (now : Nat)
    (term : String) (tok : Nat) (h1 : stripStr term ≠ "")
    (h2 : alGet s.search_terms (lowerStr (stripStr term)) = some tok) :
    ensureSearch s e d now term = (some tok, s, e) := by
  simp [ensureSearch, h1, h2]

theorem ensureSearch_fresh (s : DaemonState) (e : Engine) (now : Nat) (term : String)
    (h1 : stripStr term ≠ "")
    (h2 : alGet s.search_terms (lowerStr (stripStr term)) = none) :
    ∃ s', ensureSearch s e true now term = (some e.nextToken, s', ⟨e.nextToken + 1⟩) ∧
      s'.search_terms = alSet s.search_terms (lowerStr (stripStr term)) e.nextToken := by
  simp only [ensureSearch, requestSearch, Engine.doSearch, if_neg h1, h2, if_true]
  cases h3 : alGet s.searches e.nextToken with
  | some r => exact ⟨_, rfl, rfl⟩
  | none => exact ⟨_, rfl, rfl⟩

theorem ensureSearch_timeout (s : DaemonState) (e : Engine) (now : Nat) (term : String)
    (h1 : stripStr term ≠ "")
    (h2 : alGet s.search_terms (lowerStr (stripStr term)) = none) :
    ensureSearch s e false now term = (none, s, ⟨e.nextToken + 1⟩) := by
  simp [ensureSearch, requestSearch, Engine.doSearch, h1, h2]

/-- Inversion of a successful `ensure_search`: the term was non-empty, and the
call either found the key already live (registry and engine untouched) or
registered the engine's fresh token at the key. -/
theorem ensureSearch_success_inv {s : DaemonState} {e : Engine} {d : Bool} {now : Nat}
    {term : String} {tok : Nat} {s' : DaemonState} {e' : Engine}
    (h : ensureSearch s e d now term = (some tok, s', e')) :
    stripStr term ≠ "" ∧
    ((alGet s.search_terms (lowerStr (stripStr term)) = some tok ∧ s' = s ∧ e' = e) ∨
     (alGet s.search_terms (lowerStr (stripStr term)) = none ∧ tok = e.nextToken ∧
      e' = ⟨e.nextToken + 1⟩ ∧
      s'.search_terms = alSet s.search_terms (lowerStr (stripStr term)) e.nextToken)) := by
  by_cases h1 : stripStr term = ""
  · rw [ensureSearch_empty s e d now term h1] at h
    exact absurd (congrArg Prod.fst h) (by simp)
  · refine ⟨h1, ?_⟩
    cases h2 : alGet s.search_terms (lowerStr (stripStr term)) with
    | some t0 =>
        left
        rw [ensureSearch_mapped s e d now term t0 h1 h2] at h
        have ha : t0 = tok := Option.some.inj (congrArg Prod.fst h)
        have hb : s = s' := congrArg (fun p => p.2.1) h
        have hc : e = e' := congrArg (fun p => p.2.2) h
        exact ⟨by rw [ha], hb.symm, hc.symm⟩
    | none =>
        right
        cases d with
        | false =>
            rw [ensureSearch_timeout s e now term h1 h2] at h
            exact absurd (congrArg Prod.fst h) (by simp)
        | true =>
            obtain ⟨s'', hs'', hterms⟩ := ensureSearch_fresh s e now term h1 h2
            rw [hs''] at h
            have ha : e.nextToken = tok := Option.some.inj (congrArg Prod.fst h)
            have hb : s'' = s' := congrArg (fun p => p.2.1) h
            have hc : (⟨e.nextToken + 1⟩ : Engine) = e' := congrArg (fun p => p.2.2) h
            refine ⟨rfl, ha.symm, hc.symm, ?_⟩
            rw [← hb, hterms, ha]

/-- Inversion of a failed `ensure_search`: the registry is left unchanged. -/
theorem ensureSearch_none_inv {s : DaemonState} {e : Engine} {d : Bool} {now : Nat}
    {term : String} {s' : DaemonState} {e' : Engine}
    (h : ensureSearch s e d now term = (none, s', e')) :
    s' = s ∧ (e' = e ∨ e' = ⟨e.nextToken + 1⟩) := by
  by_cases h1 : stripStr term = ""
  · rw [ensureSearch_empty s e d now term h1] at h
    exact ⟨(congrArg (fun p => p.2.1) h).symm,
      Or.inl (congrArg (fun p => p.2.2) h).symm⟩
  · cases h2 : alGet s.search_terms (lowerStr (stripStr term)) with
    | some t0 =>
        rw [ensureSearch_mapped s e d now term t0 h1 h2] at h
        exact absurd (congrArg Prod.fst h) (by simp)
    | none =>
        cases d with
        | false =>
            rw [ensureSearch_timeout s e now term h1 h2] at h
            exact ⟨(congrArg (fun p => p.2.1) h).symm,
              Or.inr (congrArg (fun p => p.2.2) h).symm⟩
        | true =>
            obtain ⟨s'', hs'', -⟩ := ensureSearch_fresh s e now term h1 h2
            rw [hs''] at h
            exact absurd (congrArg Prod.fst h) (by simp)

theorem termIndexOK_initial (e : Engine) : TermIndexOK initialState e := by
  constructor
  · intro k tok h
    simp [initialState, alGet] at h
  · intro k₁ k₂ tok h
    simp [initialState, alGet] at h

theorem termIndexOK_bump {s : DaemonState} {e : Engine} (h : TermIndexOK s e) :
    TermIndexOK s ⟨e.nextToken + 1⟩ :=
  ⟨fun k tok hk => Nat.lt_succ_of_lt (h.1 k tok hk), h.2⟩

theorem ensureSearch_preserves_termIndexOK {s : DaemonState} {e : Engine} {d : Bool}
    {now : Nat} {term : String} {r : Option Nat} {s' : DaemonState} {e' : Engine}
    (h : ensureSearch s e d now term = (r, s', e')) (hOK : TermIndexOK s e) :
    TermIndexOK s' e' := by
  cases r with
  | none =>
      obtain ⟨rfl, he⟩ := ensureSearch_none_inv h
      rcases he with rfl | rfl
      · exact hOK
      · exact termIndexOK_bump hOK
  | some tok =>
      obtain ⟨-, hc⟩ := ensureSearch_success_inv h
      rcases hc with ⟨-, rfl, rfl⟩ | ⟨-, rfl, rfl, hterms⟩
      · exact hOK
      · constructor
        · intro k t hk
          rw [hterms] at hk
          by_cases hkk : lowerStr (stripStr term) = k
          · subst hkk
            rw [alGet_alSet_self] at hk
            have := Option.some.inj hk
            show t < e.nextToken + 1
            omega
          · rw [alGet_alSet_ne _ _ _ _ hkk] at hk
            show t < e.nextToken + 1
            exact Nat.lt_succ_of_lt (hOK.1 k t hk)
        · intro k₁ k₂ t h₁ h₂
          rw [hterms] at h₁ h₂
          by_cases hk₁ : lowerStr (stripStr term) = k₁ <;>
            by_cases hk₂ : lowerStr (stripStr term) = k₂
          · exact hk₁ ▸ hk₂ ▸ rfl
          · subst hk₁
            rw [alGet_alSet_self] at h₁
            rw [alGet_alSet_ne _ _ _ _ hk₂] at h₂
            have := hOK.1 k₂ t h₂
            have ht : t = e.nextToken := by
              have := Option.some.inj h₁
              omega
            omega
          · subst hk₂
            rw [alGet_alSet_self] at h₂
            rw [alGet_alSet_ne _ _ _ _ hk₁] at h₁
            have := hOK.1 k₁ t h₁
            have ht : t = e.nextToken := by
              have := Option.some.inj h₂
              omega
            omega
          · rw [alGet_alSet_ne _ _ _ _ hk₁] at h₁
            rw [alGet_alSet_ne _ _ _ _ hk₂] at h₂
            exact hOK.2 k₁ k₂ t h₁ h₂

theorem ensureSearch_distinct_tokens {s : DaemonState} {e : Engine}
    {d₁ d₂ : Bool} {now₁ now₂ : Nat} {t₁ t₂ : String} {tok₁ tok₂ : Nat}
    {s₁ s₂ : DaemonState} {e₁ e₂ : Engine}
    (hOK : TermIndexOK s e)
    (hkey : lowerStr (stripStr t₁) ≠ lowerStr (stripStr t₂))
    (h1 : ensureSearch s e d₁ now₁ t₁ = (some tok₁, s₁, e₁))
    (h2 : ensureSearch s₁ e₁ d₂ now₂ t₂ = (some tok₂, s₂, e₂)) :
    tok₁ ≠ tok₂ := by
  obtain ⟨-, hc1⟩ := ensureSearch_success_inv h1
  obtain ⟨-, hc2⟩ := ensureSearch_success_inv h2
  rcases hc1 with ⟨hm1, rfl, rfl⟩ | ⟨-, rfl, rfl, hterms1⟩
  · rcases hc2 with ⟨hm2, -, -⟩ | ⟨-, rfl, -, -⟩
    · intro heq
      subst heq
      exact hkey (hOK.2 _ _ tok₁ hm1 hm2)
    · have := hOK.1 _ _ hm1
      omega
  · rcases hc2 with ⟨hm2, -, -⟩ | ⟨-, rfl, -, -⟩
    · rw [hterms1, alGet_alSet_ne _ _ _ _ hkey] at hm2
      have := hOK.1 _ _ hm2
      omega
    · simp

/-- C2: `ensure_search` normalizes by trim + case-fold; an empty-after-trim
term yields `none` (registry untouched); while a normalized term's search is
alive, any term with the same key returns the identical token with no new
search (registry and engine untouched), and a successful call always leaves
the key mapped to the returned token; under the term-index invariant
(initially true and preserved by every call), two calls whose terms differ
after trim + case-fold yield distinct tokens. -/
theorem ensure_search_normalization :
    (∀ (s : DaemonState) (e : Engine) (d : Bool) (now : Nat) (term : String),
      stripStr term = "" → ensureSearch s e d now term = (none, s, e)) ∧
    (∀ (s : DaemonState) (e : Engine) (d : Bool) (now : Nat) (term : String)
      (tok : Nat), stripStr term ≠ "" →
      alGet s.search_terms (lowerStr (stripStr term)) = some tok →
      ensureSearch s e d now term = (some tok, s, e)) ∧
    (∀ (s : DaemonState) (e : Engine) (d : Bool) (now : Nat) (term : String)
      (tok : Nat) (s' : DaemonState) (e' : Engine),
      ensureSearch s e d now term = (some tok, s', e') →
      alGet s'.search_terms (lowerStr (stripStr term)) = some tok) ∧
    (∀ e : Engine, TermIndexOK initialState e) ∧
    (∀ (s : DaemonState) (e : Engine) (d : Bool) (now : Nat) (term : String)
      (r : Option Nat) (s' : DaemonState) (e' : Engine),
      ensureSearch s e d now term = (r, s', e') → TermIndexOK s e →
      TermIndexOK s' e') ∧
    (∀ (s : DaemonState) (e : Engine) (d₁ d₂ : Bool) (now₁ now₂ : Nat)
      (t₁ t₂ : String) (tok₁ tok₂ : Nat) (s₁ s₂ : DaemonState) (e₁ e₂ : Engine),
      TermIndexOK s e →
      lowerStr (stripStr t₁) ≠ lowerStr (stripStr t₂) →
      ensureSearch s e d₁ now₁ t₁ = (some tok₁, s₁, e₁) →
      ensureSearch s₁ e₁ d₂ now₂ t₂ = (some tok₂, s₂, e₂) →
      tok₁ ≠ tok₂) := by
  refine ⟨ensureSearch_empty, ensureSearch_mapped, ?_, termIndexOK_initial,
    fun _ _ _ _ _ _ _ _ h hOK => ensureSearch_preserves_termIndexOK h hOK,
    fun _ _ _ _ _ _ _ _ _ _ _ _ _ _ hOK hkey h1 h2 =>
      ensureSearch_distinct_tokens hOK hkey h1 h2⟩
  intro s e d now term tok s' e' h
  obtain ⟨-, hc⟩ := ensureSearch_success_inv h
  rcases hc with ⟨hm, rfl, -⟩ | ⟨-, rfl, -, hterms⟩
  · exact hm
  · rw [hterms]
    exact alGet_alSet_self _ _ _

/-- Witness for C2 at concrete inputs: a blank term returns `none`; after a
successful search for `" Beatles "` the key is live so `"BEATLES"` returns
the identical token untouched; and searching `"a"` then `"b"` from the fresh
registry yields tokens `1 ≠ 2`. -/
theorem ensure_search_normalization_witness :
    ensureSearch initialState ⟨1⟩ true 0 "  " = (none, initialState, ⟨1⟩) ∧
    ensureSearch
      { searches := [(1, ⟨"Beatles", 0, 0⟩)], search_results := [(1, [])],
        search_terms := [("beatles", 1)], max_search_results := 500 }
      ⟨2⟩ true 5 "BEATLES" =
      (some 1,
       { searches := [(1, ⟨"Beatles", 0, 0⟩)], search_results := [(1, [])],
         search_terms := [("beatles", 1)], max_search_results := 500 }, ⟨2⟩) ∧
    (1 : Nat) ≠ 2 := by
  refine ⟨ensure_search_normalization.1 initialState ⟨1⟩ true 0 "  " (by rfl),
    ensure_search_normalization.2.1 _ ⟨2⟩ true 5 "BEATLES" 1 (by decide) (by rfl),
    ?_⟩
  have h1 : ensureSearch initialState ⟨1⟩ true 0 "a" =
      (some 1,
       { searches := [(1, ⟨"a", 0, 0⟩)], search_results := [(1, [])],
         search_terms := [("a", 1)], max_search_results := 500 }, ⟨2⟩) := by rfl
  have h2 : ensureSearch
      { searches := [(1, ⟨"a", 0, 0⟩)], search_results := [(1, [])],
        search_terms := [("a", 1)], max_search_results := 500 } ⟨2⟩ true 0 "b" =
      (some 2,
       { searches := [(1, ⟨"a", 0, 0⟩), (2, ⟨"b", 0, 0⟩)],
         search_results := [(1, []), (2, [])],
         search_terms := [("a", 1), ("b", 2)], max_search_results := 500 }, ⟨3⟩) := by
    rfl
  exact ensure_search_normalization.2.2.2.2.2 initialState ⟨1⟩ true true 0 0
    "a" "b" 1 2 _ _ _ _ (termIndexOK_initial ⟨1⟩) (by decide) h1 h2

/-- C8: `remove_search` on a live token removes, in the one compound update,
the search record, the result bucket, and the term-index entry for the
record's case-folded term; afterwards `ensure_search` for that term finds no
mapping and issues a fresh engine search.  `remove_search_term` does the same
through the token currently mapped by the case-folded term (and is a no-op
when nothing is mapped). -/
theorem remove_search_atomic :
    ∀ (s : DaemonState) (token : Nat) (r : SearchRecord),
      alGet s.searches token = some r → r.term ≠ "" →
      (removeSearch s token).searches = alErase s.searches token ∧
      (removeSearch s token).search_results = alErase s.search_results token ∧
      (removeSearch s token).search_terms = alErase s.search_terms (lowerStr r.term) ∧
      (alWF s.search_terms →
        alGet (removeSearch s token).search_terms (lowerStr r.term) = none) ∧
      (alWF s.search_terms → stripStr r.term = r.term →
        ∀ (e : Engine) (now : Nat),
          (ensureSearch (removeSearch s token) e true now r.term).1 =
            some e.nextToken) ∧
      (∀ (term : String) (tok : Nat),
        alGet s.search_terms (lowerStr term) = some tok →
        removeSearchTerm s term = removeSearch s tok) ∧
      (∀ term : String, alGet s.search_terms (lowerStr term) = none →
        removeSearchTerm s term = s) := by
  intro s token r hr hterm
  have h₁ : (removeSearch s token).searches = alErase s.searches token := by
    simp [removeSearch, hr, hterm]
  have h₂ : (removeSearch s token).search_results = alErase s.search_results token := by
    simp [removeSearch, hr, hterm]
  have h₃ : (removeSearch s token).search_terms =
      alErase s.search_terms (lowerStr r.term) := by
    simp [removeSearch, hr, hterm]
  have h₄ : alWF s.search_terms →
      alGet (removeSearch s token).search_terms (lowerStr r.term) = none := by
    intro hwf
    rw [h₃]
    exact alGet_alErase_self _ _ hwf
  refine ⟨h₁, h₂, h₃, h₄, ?_, ?_, ?_⟩
  · intro hwf hclean e now
    have hne : stripStr r.term ≠ "" := by rw [hclean]; exact hterm
    have hnone : alGet (removeSearch s token).search_terms
        (lowerStr (stripStr r.term)) = none := by
      rw [hclean]; exact h₄ hwf
    obtain ⟨s', heq, -⟩ := ensureSearch_fresh (removeSearch s token) e now r.term hne hnone
    rw [heq]
  · intro term tok h
    unfold removeSearchTerm
    rw [h]
  · intro term h
    unfold removeSearchTerm
    rw [h]

/-- Witness for C8 on the registry holding one live search for `"Rush"` under
token `7`. -/
theorem remove_search_atomic_witness :
    (removeSearch (addSearch initialState 7 "Rush" 5) 7).searches = [] ∧
    (removeSearch (addSearch initialState 7 "Rush" 5) 7).search_results = [] ∧
    (removeSearch (addSearch initialState 7 "Rush" 5) 7).search_terms = [] ∧
    alGet (removeSearch (addSearch initialState 7 "Rush" 5) 7).search_terms
      "rush" = none ∧
    (ensureSearch (removeSearch (addSearch initialState 7 "Rush" 5) 7) ⟨9⟩
      true 0 "Rush").1 = some 9 ∧
    removeSearchTerm (addSearch initialState 7 "Rush" 5) "RUSH" =
      removeSearch (addSearch initialState 7 "Rush" 5) 7 := by
  have h := remove_search_atomic (addSearch initialState 7 "Rush" 5) 7
    ⟨"Rush", 5, 0⟩ (by rfl) (by decide)
  refine ⟨by rw [h.1]; rfl, by rw [h.2.1]; rfl, by rw [h.2.2.1]; rfl,
    ?_, h.2.2.2.2.1 (by unfold alWF; decide) (by rfl) ⟨9⟩ 0,
    h.2.2.2.2.2.1 "RUSH" 7 (by rfl)⟩
  have := h.2.2.2.1 (by unfold alWF; decide)
  simpa using this

theorem addSearchResults_max (s : DaemonState) (token : Nat) (u : String)
    (res : List FileInfo) (fs sp q : Nat) :
    (addSearchResults s token u res fs sp q).max_search_results =
      s.max_search_results := by
  by_cases hres : res = []
  · simp [addSearchResults, hres]
  · cases hsr : alGet s.searches token with
    | none => simp [addSearchResults, hres, hsr]
    | some r =>
        by_cases hcap : s.max_search_results ≤
            ((alGet s.search_results token).getD []).length
        · simp [addSearchResults, hres, hsr, hcap]
        · simp [addSearchResults, hres, hsr, hcap]

theorem addSearchResults_unknown (s : DaemonState) (token : Nat) (u : String)
    (res : List FileInfo) (fs sp q : Nat) (h : alGet s.searches token = none) :
    addSearchResults s token u res fs sp q = s := by
  by_cases hres : res = [] <;> simp [addSearchResults, hres, h]

theorem addSearchResults_at_cap (s : DaemonState) (token : Nat) (u : String)
    (res : List FileInfo) (fs sp q : Nat) (items : List ResultEntry)
    (hb : alGet s.search_results token = some items)
    (hcap : s.max_search_results ≤ items.length) :
    addSearchResults s token u res fs sp q = s := by
  by_cases hres : res = []
  · simp [addSearchResults, hres]
  · cases hsr : alGet s.searches token with
    | none => simp [addSearchResults, hres, hsr]
    | some r =>
        have hitems : (alGet s.search_results token).getD [] = items := by
          rw [hb]; rfl
        have hsd : alSetD s.search_results token [] = s.search_results := by
          unfold alSetD; rw [hb]
        simp [addSearchResults, hres, hsr, hitems, hcap, hsd]

theorem addSearchResults_bucketLen_le (s : DaemonState) (token' : Nat) (u : String)
    (res : List FileInfo) (fs sp q : Nat) (token : Nat)
    (h : bucketLen s token ≤ s.max_search_results) :
    bucketLen (addSearchResults s token' u res fs sp q) token ≤
      s.max_search_results := by
  by_cases hres : res = []
  · simpa [addSearchResults, hres] using h
  · cases hsr : alGet s.searches token' with
    | none => simpa [addSearchResults, hres, hsr] using h
    | some r =>
        by_cases hcap : s.max_search_results ≤
            ((alGet s.search_results token').getD []).length
        · by_cases htok : token' = token
          · subst htok
            simpa [addSearchResults, hres, hsr, hcap, bucketLen, alGet_alSetD]
              using h
          · simpa [addSearchResults, hres, hsr, hcap, bucketLen,
              alGet_alSetD_ne _ _ _ _ htok] using h
        · by_cases htok : token' = token
          · subst htok
            simp only [addSearchResults, if_neg hres, hsr, if_neg hcap,
              bucketLen, alGet_alSet_self, Option.getD_some]
            rw [List.length_append, List.length_map, List.length_take]
            omega
          · simpa [addSearchResults, hres, hsr, hcap, bucketLen,
              alGet_alSet_ne _ _ _ _ htok, alGet_alSetD_ne _ _ _ _ htok] using h

theorem applyCalls_bucketLen_le :
    ∀ (calls : List AddCall) (s : DaemonState) (token : Nat),
      bucketLen s token ≤ s.max_search_results →
      bucketLen (applyCalls s calls) token ≤ s.max_search_results := by
  intro calls
  induction calls with
  | nil => intro s token h; exact h
  | cons c cs ih =>
      intro s token h
      have hstep := addSearchResults_bucketLen_le s c.token c.username c.results
        c.free_slots c.speed c.inqueue token h
      have hmax := addSearchResults_max s c.token c.username c.results
        c.free_slots c.speed c.inqueue
      have hrec := ih (addSearchResults s c.token c.username c.results
        c.free_slots c.speed c.inqueue) token (by rw [hmax]; exact hstep)
      rw [hmax] at hrec
      exact hrec

/-- C1: a token's result bucket never grows beyond `max_search_results` under
any sequence of `add_search_results` calls; a call on an unknown token or on
a bucket already at capacity is a no-op (so `resultCount` stops increasing at
the cap); a call with remaining capacity appends at most the remaining number
of entries; and the default capacity is 500. -/
theorem add_search_results_cap :
    (∀ (s : DaemonState) (calls : List AddCall) (token : Nat),
      bucketLen s token ≤ s.max_search_results →
      bucketLen (applyCalls s calls) token ≤ s.max_search_results) ∧
    (∀ (s : DaemonState) (token : Nat) (u : String) (res : List FileInfo)
      (fs sp q : Nat), alGet s.searches token = none →
      addSearchResults s token u res fs sp q = s) ∧
    (∀ (s : DaemonState) (token : Nat) (u : String) (res : List FileInfo)
      (fs sp q : Nat) (items : List ResultEntry),
      alGet s.search_results token = some items →
      s.max_search_results ≤ items.length →
      addSearchResults s token u res fs sp q = s) ∧
    (∀ (s : DaemonState) (token : Nat) (u : String) (res : List FileInfo)
      (fs sp q : Nat) (r : SearchRecord),
      alGet s.searches token = some r → res ≠ [] →
      bucketLen s token < s.max_search_results →
      bucketLen (addSearchResults s token u res fs sp q) token =
        min (bucketLen s token + res.length) s.max_search_results) ∧
    initialState.max_search_results = 500 := by
  refine ⟨fun s calls token h => applyCalls_bucketLen_le calls s token h,
    addSearchResults_unknown, addSearchResults_at_cap, ?_, rfl⟩
  intro s token u res fs sp q r hr hres hlt
  have hcap : ¬ s.max_search_results ≤
      ((alGet s.search_results token).getD []).length := by
    rw [Nat.not_le]
    exact hlt
  simp only [addSearchResults, if_neg hres, hr, if_neg hcap, bucketLen,
    alGet_alSet_self, Option.getD_some]
  rw [List.length_append, List.length_map, List.length_take]
  unfold bucketLen at hlt
  omega

/-- Witness for C1: capacity facts exercised on concrete registries (unknown
token is a no-op; a bucket at its capacity of 1 is a no-op; a call on an
empty bucket of capacity 1 with two results appends exactly one). -/
theorem add_search_results_cap_witness :
    bucketLen (applyCalls initialState [⟨1, "u", [⟨0, "f", 3, "", none⟩], 0, 0, 0⟩]) 1
      ≤ 500 ∧
    addSearchResults initialState 3 "u" [⟨0, "f", 3, "", none⟩] 0 0 0 =
      initialState ∧
    addSearchResults
      ⟨[(1, ⟨"t", 0, 1⟩)], [(1, [⟨"u", "p", 1, 0, 0, 0, ""⟩])], [("t", 1)], 1⟩
      1 "u" [⟨0, "f", 3, "", none⟩] 0 0 0 =
      ⟨[(1, ⟨"t", 0, 1⟩)], [(1, [⟨"u", "p", 1, 0, 0, 0, ""⟩])], [("t", 1)], 1⟩ ∧
    bucketLen (addSearchResults
      ⟨[(1, ⟨"t", 0, 0⟩)], [(1, [])], [("t", 1)], 1⟩
      1 "u" [⟨0, "f", 3, "", none⟩, ⟨0, "g", 4, "", none⟩] 0 0 0) 1 = 1 := by
  refine ⟨?_, add_search_results_cap.2.1 initialState 3 "u" _ 0 0 0 rfl,
    add_search_results_cap.2.2.1 _ 1 "u" _ 0 0 0 _ rfl (by decide), ?_⟩
  · have h := add_search_results_cap.1 initialState
      [⟨1, "u", [⟨0, "f", 3, "", none⟩], 0, 0, 0⟩] 1 (by decide)
    simpa using h
  · have h := add_search_results_cap.2.2.2.1
      ⟨[(1, ⟨"t", 0, 0⟩)], [(1, [])], [("t", 1)], 1⟩
      1 "u" [⟨0, "f", 3, "", none⟩, ⟨0, "g", 4, "", none⟩] 0 0 0
      ⟨"t", 0, 0⟩ rfl (by decide) (by decide)
    simpa using h

/-- C5: the concrete scenario — `ensure_search("Beatles")` twice returns the
same token; after one `add_search_results` for user `alice` with the single
file `music\Abbey Road\01 - Come Together.mp3` of size 1000000,
`build_search_tree` yields exactly
`Root → Dir "alice" → Dir "music\Abbey Road" → File(name, 1000000)`. -/
theorem concrete_beatles_scenario :
    ensureSearch initialState ⟨1⟩ true 100 "Beatles" =
      (some 1,
       { searches := [(1, ⟨"Beatles", 100, 0⟩)], search_results := [(1, [])],
         search_terms := [("beatles", 1)], max_search_results := 500 }, ⟨2⟩) ∧
    ensureSearch
      { searches := [(1, ⟨"Beatles", 100, 0⟩)], search_results := [(1, [])],
        search_terms := [("beatles", 1)], max_search_results := 500 }
      ⟨2⟩ true 200 "Beatles" =
      (some 1,
       { searches := [(1, ⟨"Beatles", 100, 0⟩)], search_results := [(1, [])],
         search_terms := [("beatles", 1)], max_search_results := 500 }, ⟨2⟩) ∧
    stateBuildSearchTree
      (addSearchResults
        { searches := [(1, ⟨"Beatles", 100, 0⟩)], search_results := [(1, [])],
          search_terms := [("beatles", 1)], max_search_results := 500 }
        1 "alice"
        [⟨1, "music\x5cAbbey Road\x5c01 - Come Together.mp3", 1000000, "mp3", none⟩]
        3 500 0) 1 =
      some (.root [.dir "alice" [.dir "music\x5cAbbey Road"
        [.file "01 - Come Together.mp3" 1000000
          "music\x5cAbbey Road\x5c01 - Come Together.mp3"
          (some ⟨"alice", 500, 3, ""⟩)]]]) :=
  ⟨rfl, rfl, rfl⟩

/-- C3: every tree the builders produce — the generic folder-map builder, the
user-browse builder, and the search builder — satisfies the ordering
invariant at every node: `dir` children before `file` children, each group
ascending by case-insensitive name, recursively. -/
theorem built_trees_well_ordered :
    (∀ fm : List (String × FolderVal), WellOrdered (buildTreeFromFolderMap fm)) ∧
    (∀ (bu : Option BrowsedUser) (hide : Bool) (t : Node),
      buildUserTree bu hide = some t → WellOrdered t) ∧
    (∀ (rs : List ResultEntry) (t : Node),
      buildSearchTree rs = some t → WellOrdered t) := by
  refine ⟨?_, ?_, ?_⟩
  · intro fm
    unfold buildTreeFromFolderMap
    exact wellOrdered_sortTree _
  · intro bu hide t h
    cases bu with
    | none => simp [buildUserTree] at h
    | some u =>
        unfold buildUserTree at h
        by_cases hfm : userFolderMap u.private_folders hide
            (userFolderMap u.public_folders hide []) = []
        · simp [hfm] at h
        · simp only [hfm, if_neg, if_false] at h
          cases h
          unfold buildTreeFromFolderMap
          exact wellOrdered_sortTree _
  · intro rs t h
    by_cases hrs : rs = []
    · simp [buildSearchTree, hrs] at h
    · unfold buildSearchTree at h
      rw [if_neg hrs] at h
      cases h
      exact wellOrdered_sortTree _

/-- Witness for C3: the ordering invariant on concretely built user-browse and
search trees. -/
theorem built_trees_well_ordered_witness :
    WellOrdered (buildTreeFromFolderMap []) ∧
    (buildUserTree (some ⟨[("f", [⟨0, "a", 5⟩])], []⟩) false =
       some (.root [.dir "f" [.file "a" 5 "f\x5ca" none]]) ∧
     WellOrdered (.root [.dir "f" [.file "a" 5 "f\x5ca" none]])) ∧
    (buildSearchTree [⟨"u", "d\x5cb", 7, 1, 2, 3, ""⟩] =
       some (.root [.dir "u" [.dir "d" [.file "b" 7 "d\x5cb"
         (some ⟨"u", 2, 1, ""⟩)]]]) ∧
     WellOrdered (.root [.dir "u" [.dir "d" [.file "b" 7 "d\x5cb"
       (some ⟨"u", 2, 1, ""⟩)]]])) :=
  ⟨built_trees_well_ordered.1 [],
   ⟨rfl, built_trees_well_ordered.2.1 (some ⟨[("f", [⟨0, "a", 5⟩])], []⟩) false _ rfl⟩,
   ⟨rfl, built_trees_well_ordered.2.2 [⟨"u", "d\x5cb", 7, 1, 2, 3, ""⟩] _ rfl⟩⟩

/-- C6 counterexample: for the single result `u : a\b\f.mp3`, the built search
tree holds the file under one `Dir` named by the whole folder path `a\b`
inside the author directory — not under the per-segment chain
`Dir "a" → Dir "b"` that the shared folder-map builder would produce, which
the claim prescribes. -/
theorem search_tree_not_per_segment_counterexample :
    buildSearchTree [⟨"u", "a\x5cb\x5cf.mp3", 7, 1, 2, 3, ""⟩] =
      some (.root [.dir "u" [.dir "a\x5cb"
        [.file "f.mp3" 7 "a\x5cb\x5cf.mp3" (some ⟨"u", 2, 1, ""⟩)]]]) ∧
    buildSearchTree [⟨"u", "a\x5cb\x5cf.mp3", 7, 1, 2, 3, ""⟩] ≠
      some (.root [.dir "u" [.dir "a" [.dir "b"
        [.file "f.mp3" 7 "a\x5cb\x5cf.mp3" (some ⟨"u", 2, 1, ""⟩)]]]]) ∧
    buildTreeFromFolderMap [("a\x5cb", .plain [⟨0, "f.mp3", 7⟩])] =
      .root [.dir "a" [.dir "b" [.file "f.mp3" 7 "a\x5cb\x5cf.mp3" none]]] := by
  refine ⟨rfl, ?_, rfl⟩
  intro h
  rw [show buildSearchTree [⟨"u", "a\x5cb\x5cf.mp3", 7, 1, 2, 3, ""⟩] =
      some (.root [.dir "u" [.dir "a\x5cb"
        [.file "f.mp3" 7 "a\x5cb\x5cf.mp3" (some ⟨"u", 2, 1, ""⟩)]]]) from rfl] at h
  simp at h

theorem countDirsNamed_append (a b : List Node) (n : String) :
    countDirsNamed (a ++ b) n = countDirsNamed a n + countDirsNamed b n := by
  simp [countDirsNamed, List.filter_append]

theorem le_countDirsNamed_of_mem {name : String} {k : List Node} {cs : List Node}
    (h : Node.dir name k ∈ cs) : 1 ≤ countDirsNamed cs name := by
  have hmem : Node.dir name k ∈ cs.filter fun c => isDirNamed name c :=
    List.mem_filter.mpr ⟨h, by simp [isDirNamed]⟩
  have := List.length_pos.mpr (List.ne_nil_of_mem hmem)
  simpa [countDirsNamed] using this

theorem findChildDir_eq_find (cs : List Node) (name : String) :
    findChildDir cs name = cs.find? (fun c => isDirNamed name c) := rfl

theorem countDirsNamed_eq_zero_of_findChildDir_none {cs : List Node} {u : String}
    (h : findChildDir cs u = none) : countDirsNamed cs u = 0 := by
  rw [findChildDir_eq_find] at h
  rw [List.find?_eq_none] at h
  have : cs.filter (fun c => isDirNamed u c) = [] := by
    rw [List.filter_eq_nil_iff]
    intro a ha
    exact fun hsat => h a ha hsat
  simp [countDirsNamed, this]

theorem findChildDir_some {cs : List Node} {u : String} {c : Node}
    (h : findChildDir cs u = some c) : c ∈ cs ∧ ∃ kids, c = Node.dir u kids := by
  rw [findChildDir_eq_find] at h
  refine ⟨List.mem_of_find?_eq_some h, ?_⟩
  have hp := List.find?_some h
  cases c with
  | dir n kids =>
      simp [isDirNamed] at hp
      exact ⟨kids, by rw [hp]⟩
  | root cs' => simp [isDirNamed] at hp
  | file a b c d => simp [isDirNamed] at hp

theorem countDirsNamed_modifyDir (name : String) (f : List Node → List Node)
    (cs : List Node) (n : String) :
    countDirsNamed (modifyDir name f cs) n = countDirsNamed cs n := by
  induction cs with
  | nil => rfl
  | cons c cs ih =>
      cases c with
      | dir n₀ kids =>
          by_cases h : n₀ = name
          · subst h
            simp only [modifyDir, if_pos rfl]
            simp only [countDirsNamed, List.filter, isDirNamed]
            cases hdec : decide (n₀ = n) <;> simp [hdec]
          · simp only [modifyDir, if_neg h]
            simp [countDirsNamed, List.filter] at ih ⊢
            cases hd : isDirNamed n (Node.dir n₀ kids) <;> simp [hd, ih]
      | root cs' =>
          simp only [modifyDir]
          simp [countDirsNamed, List.filter, isDirNamed] at ih ⊢
          exact ih
      | file a b c d =>
          simp only [modifyDir]
          simp [countDirsNamed, List.filter, isDirNamed] at ih ⊢
          exact ih

theorem mem_modifyDir_of_ne {u : String} {k : List Node} {name : String}
    {f : List Node → List Node} {cs : List Node}
    (h : Node.dir u k ∈ cs) (hne : u ≠ name) :
    Node.dir u k ∈ modifyDir name f cs := by
  induction cs with
  | nil => cases h
  | cons c cs ih =>
      cases c with
      | dir n₀ kids =>
          by_cases h₀ : n₀ = name
          · simp only [modifyDir, if_pos h₀]
            rcases List.mem_cons.mp h with heq | h₂
            · injection heq with h1 h2
              exact absurd (h1.trans h₀) hne
            · exact List.mem_cons_of_mem _ h₂
          · simp only [modifyDir, if_neg h₀]
            rcases List.mem_cons.mp h with heq | h₂
            · rw [heq]
              exact List.mem_cons_self _ _
            · exact List.mem_cons_of_mem _ (ih h₂)
      | root cs' =>
          simp only [modifyDir]
          rcases List.mem_cons.mp h with heq | h₂
          · cases heq
          · exact List.mem_cons_of_mem _ (ih h₂)
      | file a b c d =>
          simp only [modifyDir]
          rcases List.mem_cons.mp h with heq | h₂
          · cases heq
          · exact List.mem_cons_of_mem _ (ih h₂)

theorem mem_modifyDir_self {name : String} {k : List Node}
    {f : List Node → List Node} {cs : List Node}
    (h : Node.dir name k ∈ cs) (huniq : countDirsNamed cs name ≤ 1) :
    Node.dir name (f k) ∈ modifyDir name f cs := by
  induction cs with
  | nil => cases h
  | cons c cs ih =>
      cases c with
      | dir n₀ kids =>
          by_cases h₀ : n₀ = name
          · subst h₀
            simp only [modifyDir, if_pos rfl]
            rcases List.mem_cons.mp h with heq | h
            · obtain ⟨rfl⟩ : kids = k := by cases heq; rfl
              exact List.mem_cons_self _ _
            · exfalso
              have h₁ := le_countDirsNamed_of_mem h
              have hc : countDirsNamed (Node.dir n₀ kids :: cs) n₀ =
                  countDirsNamed cs n₀ + 1 := by
                simp [countDirsNamed, List.filter, isDirNamed]
              omega
          · simp only [modifyDir, if_neg h₀]
            rcases List.mem_cons.mp h with heq | h
            · exact absurd (by cases heq; rfl : n₀ = name) h₀
            · refine List.mem_cons_of_mem _ (ih h ?_)
              have : countDirsNamed (Node.dir n₀ kids :: cs) name =
                  countDirsNamed cs name := by
                simp [countDirsNamed, List.filter, isDirNamed, h₀]
              omega
      | root cs' =>
          rcases List.mem_cons.mp h with heq | h
          · cases heq
          · simp only [modifyDir]
            refine List.mem_cons_of_mem _ (ih h ?_)
            have : countDirsNamed (Node.root cs' :: cs) name =
                countDirsNamed cs name := by
              simp [countDirsNamed, List.filter, isDirNamed]
            omega
      | file a b c d =>
          rcases List.mem_cons.mp h with heq | h
          · cases heq
          · simp only [modifyDir]
            refine List.mem_cons_of_mem _ (ih h ?_)
            have : countDirsNamed (Node.file a b c d :: cs) name =
                countDirsNamed cs name := by
              simp [countDirsNamed, List.filter, isDirNamed]
            omega

theorem mem_modifyDir_inv {x : Node} {name : String} {f : List Node → List Node}
    {cs : List Node} (h : x ∈ modifyDir name f cs) :
    x ∈ cs ∨ ∃ k, Node.dir name k ∈ cs ∧ x = Node.dir name (f k) := by
  induction cs with
  | nil => exact Or.inl h
  | cons c cs ih =>
      cases c with
      | dir n₀ kids =>
          by_cases h₀ : n₀ = name
          · subst h₀
            simp only [modifyDir, if_pos rfl] at h
            rcases List.mem_cons.mp h with rfl | h
            · exact Or.inr ⟨kids, List.mem_cons_self _ _, rfl⟩
            · exact Or.inl (List.mem_cons_of_mem _ h)
          · simp only [modifyDir, if_neg h₀] at h
            rcases List.mem_cons.mp h with rfl | h
            · exact Or.inl (List.mem_cons_self _ _)
            · rcases ih h with h' | ⟨k, hk, rfl⟩
              · exact Or.inl (List.mem_cons_of_mem _ h')
              · exact Or.inr ⟨k, List.mem_cons_of_mem _ hk, rfl⟩
      | root cs' =>
          simp only [modifyDir] at h
          rcases List.mem_cons.mp h with rfl | h
          · exact Or.inl (List.mem_cons_self _ _)
          · rcases ih h with h' | ⟨k, hk, rfl⟩
            · exact Or.inl (List.mem_cons_of_mem _ h')
            · exact Or.inr ⟨k, List.mem_cons_of_mem _ hk, rfl⟩
      | file a b c d =>
          simp only [modifyDir] at h
          rcases List.mem_cons.mp h with rfl | h
          · exact Or.inl (List.mem_cons_self _ _)
          · rcases ih h with h' | ⟨k, hk, rfl⟩
            · exact Or.inl (List.mem_cons_of_mem _ h')
            · exact Or.inr ⟨k, List.mem_cons_of_mem _ hk, rfl⟩

theorem countDirsNamed_singleton_dir (u : String) (k : List Node) (n : String) :
    countDirsNamed [Node.dir u k] n = if u = n then 1 else 0 := by
  by_cases h : u = n <;> simp [countDirsNamed, List.filter, isDirNamed, h]

theorem addFileToUser_uniq {uk : List Node} {fp : String} {leaf : Node}
    (h : ∀ n, countDirsNamed uk n ≤ 1) :
    ∀ n, countDirsNamed (addFileToUser fp leaf uk) n ≤ 1 := by
  intro n
  unfold addFileToUser
  cases hf : findChildDir uk fp with
  | some c =>
      rw [countDirsNamed_modifyDir]
      exact h n
  | none =>
      rw [countDirsNamed_modifyDir, countDirsNamed_append,
        countDirsNamed_singleton_dir]
      by_cases hfp : fp = n
      · subst hfp
        have h0 := countDirsNamed_eq_zero_of_findChildDir_none hf
        simp [h0]
      · have := h n
        simp [hfp]
        omega

theorem addFileToUser_estab {uk : List Node} {fp : String} {leaf : Node}
    (h : ∀ n, countDirsNamed uk n ≤ 1) :
    ∃ fkids, Node.dir fp fkids ∈ addFileToUser fp leaf uk ∧ leaf ∈ fkids := by
  unfold addFileToUser
  cases hf : findChildDir uk fp with
  | some c =>
      obtain ⟨hmem, kids, rfl⟩ := findChildDir_some hf
      exact ⟨kids ++ [leaf], mem_modifyDir_self hmem (h fp), by simp⟩
  | none =>
      refine ⟨[] ++ [leaf], ?_, by simp⟩
      have hmem : Node.dir fp [] ∈ uk ++ [Node.dir fp []] := by simp
      refine mem_modifyDir_self hmem ?_
      rw [countDirsNamed_append, countDirsNamed_singleton_dir]
      have h0 := countDirsNamed_eq_zero_of_findChildDir_none hf
      simp [h0]

theorem addFileToUser_preserves {uk : List Node} {fp : String} {leaf : Node}
    {fp₀ : String} {fkids : List Node} {leaf₀ : Node}
    (h : ∀ n, countDirsNamed uk n ≤ 1)
    (hmem : Node.dir fp₀ fkids ∈ uk) (hleaf : leaf₀ ∈ fkids) :
    ∃ fkids', Node.dir fp₀ fkids' ∈ addFileToUser fp leaf uk ∧ leaf₀ ∈ fkids' := by
  unfold addFileToUser
  by_cases hfp : fp₀ = fp
  · subst hfp
    cases hf : findChildDir uk fp₀ with
    | none =>
        exact absurd (countDirsNamed_eq_zero_of_findChildDir_none hf)
          (by have := le_countDirsNamed_of_mem hmem; omega)
    | some c =>
        exact ⟨fkids ++ [leaf], mem_modifyDir_self hmem (h fp₀),
          List.mem_append_left _ hleaf⟩
  · cases hf : findChildDir uk fp with
    | some c => exact ⟨fkids, mem_modifyDir_of_ne hmem hfp, hleaf⟩
    | none =>
        exact ⟨fkids, mem_modifyDir_of_ne (List.mem_append_left _ hmem) hfp, hleaf⟩

theorem ensureUserDir_top_uniq {cs : List Node} {u : String}
    (h : TopDirsUnique cs) : TopDirsUnique (ensureUserDir cs u) := by
  intro n
  unfold ensureUserDir
  cases hf : findChildDir cs u with
  | some c => exact h n
  | none =>
      rw [countDirsNamed_append, countDirsNamed_singleton_dir]
      by_cases hu : u = n
      · subst hu
        have h0 := countDirsNamed_eq_zero_of_findChildDir_none hf
        simp [h0]
      · have := h n
        simp [hu]
        omega

theorem ensureUserDir_inner_uniq {cs : List Node} {u : String}
    (h : InnerDirsUnique cs) : InnerDirsUnique (ensureUserDir cs u) := by
  intro c hc u' kids heq fp
  unfold ensureUserDir at hc
  cases hf : findChildDir cs u with
  | some c' =>
      rw [hf] at hc
      exact h c hc u' kids heq fp
  | none =>
      rw [hf] at hc
      rcases List.mem_append.mp hc with hc | hc
      · exact h c hc u' kids heq fp
      · have : c = Node.dir u [] := by simpa using hc
        subst this
        cases heq
        simp [countDirsNamed]

theorem ensureUserDir_mem {cs : List Node} {u u' : String} {k : List Node}
    (hmem : Node.dir u' k ∈ cs) : Node.dir u' k ∈ ensureUserDir cs u := by
  unfold ensureUserDir
  cases findChildDir cs u with
  | some c => exact hmem
  | none => exact List.mem_append_left _ hmem

theorem ensureUserDir_exists (cs : List Node) (u : String) :
    ∃ uk, Node.dir u uk ∈ ensureUserDir cs u := by
  unfold ensureUserDir
  cases hf : findChildDir cs u with
  | some c =>
      obtain ⟨hmem, kids, rfl⟩ := findChildDir_some hf
      exact ⟨kids, hmem⟩
  | none => exact ⟨[], by simp⟩

theorem processEntry_skip_eq {cs : List Node} {e : ResultEntry}
    (h : e.user = "" ∨ e.path = "") : processEntry cs e = cs := by
  simp [processEntry, h]

theorem processEntry_nolast_eq {cs : List Node} {e : ResultEntry}
    (hu : e.user ≠ "") (hp : e.path ≠ "")
    (hl : (markerDropped e.path).getLast? = none) :
    processEntry cs e = ensureUserDir cs e.user := by
  simp [processEntry, hu, hp, hl]

theorem processEntry_valid_eq {cs : List Node} {e : ResultEntry} {fn : String}
    (hu : e.user ≠ "") (hp : e.path ≠ "")
    (hl : (markerDropped e.path).getLast? = some fn) :
    processEntry cs e =
      modifyDir e.user
        (addFileToUser (searchFolderLabel (markerDropped e.path))
          (Node.file fn e.size e.path
            (some ⟨e.user, e.speed, e.free_slots, e.attributes⟩)))
        (ensureUserDir cs e.user) := by
  simp [processEntry, hu, hp, hl]

theorem processEntry_top_uniq {cs : List Node} (e : ResultEntry)
    (h : TopDirsUnique cs) : TopDirsUnique (processEntry cs e) := by
  by_cases hskip : e.user = "" ∨ e.path = ""
  · rw [processEntry_skip_eq hskip]; exact h
  · push_neg at hskip
    obtain ⟨hu, hp⟩ := hskip
    cases hl : (markerDropped e.path).getLast? with
    | none =>
        rw [processEntry_nolast_eq hu hp hl]
        exact ensureUserDir_top_uniq h
    | some fn =>
        rw [processEntry_valid_eq hu hp hl]
        intro n
        rw [countDirsNamed_modifyDir]
        exact ensureUserDir_top_uniq h n

theorem processEntry_inner_uniq {cs : List Node} (e : ResultEntry)
    (h : InnerDirsUnique cs) : InnerDirsUnique (processEntry cs e) := by
  by_cases hskip : e.user = "" ∨ e.path = ""
  · rw [processEntry_skip_eq hskip]; exact h
  · push_neg at hskip
    obtain ⟨hu, hp⟩ := hskip
    cases hl : (markerDropped e.path).getLast? with
    | none =>
        rw [processEntry_nolast_eq hu hp hl]
        exact ensureUserDir_inner_uniq h
    | some fn =>
        rw [processEntry_valid_eq hu hp hl]
        intro c hc u' kids heq fp
        rcases mem_modifyDir_inv hc with hc | ⟨k, hk, rfl⟩
        · exact ensureUserDir_inner_uniq h c hc u' kids heq fp
        · cases heq
          exact addFileToUser_uniq
            (fun n => ensureUserDir_inner_uniq h _ hk e.user k rfl n) fp

theorem processEntry_preserves_hasUFF {cs : List Node} (e : ResultEntry)
    {u fp : String} {leaf : Node}
    (h1 : TopDirsUnique cs) (h2 : InnerDirsUnique cs)
    (hh : HasUFF cs u fp leaf) : HasUFF (processEntry cs e) u fp leaf := by
  obtain ⟨uk, huk, fk, hfk, hleaf⟩ := hh
  by_cases hskip : e.user = "" ∨ e.path = ""
  · rw [processEntry_skip_eq hskip]; exact ⟨uk, huk, fk, hfk, hleaf⟩
  · push_neg at hskip
    obtain ⟨hu, hp⟩ := hskip
    cases hl : (markerDropped e.path).getLast? with
    | none =>
        rw [processEntry_nolast_eq hu hp hl]
        exact ⟨uk, ensureUserDir_mem huk, fk, hfk, hleaf⟩
    | some fn =>
        rw [processEntry_valid_eq hu hp hl]
        by_cases huser : u = e.user
        · subst huser
          have hmem' := @ensureUserDir_mem _ e.user _ _ huk
          obtain ⟨fk', hfk', hleaf'⟩ := addFileToUser_preserves
            (fun n => ensureUserDir_inner_uniq h2 _ hmem' e.user uk rfl n) hfk hleaf
          exact ⟨_, mem_modifyDir_self hmem' (ensureUserDir_top_uniq h1 e.user),
            fk', hfk', hleaf'⟩
        · exact ⟨uk, mem_modifyDir_of_ne (ensureUserDir_mem huk) huser,
            fk, hfk, hleaf⟩

theorem processEntry_estab {cs : List Node} {e : ResultEntry} {fn : String}
    (h1 : TopDirsUnique cs) (h2 : InnerDirsUnique cs)
    (hu : e.user ≠ "") (hp : e.path ≠ "")
    (hl : (markerDropped e.path).getLast? = some fn) :
    HasUFF (processEntry cs e) e.user (searchFolderLabel (markerDropped e.path))
      (Node.file fn e.size e.path
        (some ⟨e.user, e.speed, e.free_slots, e.attributes⟩)) := by
  rw [processEntry_valid_eq hu hp hl]
  obtain ⟨uk, huk⟩ := ensureUserDir_exists cs e.user
  obtain ⟨fkids, hfkids, hleaf⟩ :=
    @addFileToUser_estab uk (searchFolderLabel (markerDropped e.path))
      (Node.file fn e.size e.path
        (some ⟨e.user, e.speed, e.free_slots, e.attributes⟩))
      (fun n => ensureUserDir_inner_uniq h2 _ huk e.user uk rfl n)
  exact ⟨_, mem_modifyDir_self huk (ensureUserDir_top_uniq h1 e.user),
    fkids, hfkids, hleaf⟩

theorem foldl_processEntry_facts :
    ∀ (rs : List ResultEntry) (cs : List Node),
      TopDirsUnique cs → InnerDirsUnique cs →
      TopDirsUnique (rs.foldl processEntry cs) ∧
      InnerDirsUnique (rs.foldl processEntry cs) ∧
      (∀ u fp leaf, HasUFF cs u fp leaf →
        HasUFF (rs.foldl processEntry cs) u fp leaf) ∧
      (∀ e ∈ rs, ∀ fn : String, e.user ≠ "" → e.path ≠ "" →
        (markerDropped e.path).getLast? = some fn →
        HasUFF (rs.foldl processEntry cs) e.user
          (searchFolderLabel (markerDropped e.path))
          (Node.file fn e.size e.path
            (some ⟨e.user, e.speed, e.free_slots, e.attributes⟩))) := by
  intro rs
  induction rs with
  | nil =>
      intro cs h1 h2
      exact ⟨h1, h2, fun u fp leaf hh => hh, fun e he => absurd he (by simp)⟩
  | cons e rs ih =>
      intro cs h1 h2
      have h1' := processEntry_top_uniq e h1
      have h2' := processEntry_inner_uniq e h2
      obtain ⟨ht, hi, hpres, hestab⟩ := ih (processEntry cs e) h1' h2'
      refine ⟨ht, hi, ?_, ?_⟩
      · intro u fp leaf hh
        exact hpres u fp leaf (processEntry_preserves_hasUFF e h1 h2 hh)
      · intro e' he' fn hu hp hl
        rcases List.mem_cons.mp he' with rfl | he'
        · exact hpres _ _ _ (processEntry_estab h1 h2 hu hp hl)
        · exact hestab e' he' fn hu hp hl

theorem isDirNamed_sortTree (n : String) (c : Node) :
    isDirNamed n (sortTree c) = isDirNamed n c := by
  cases c <;> simp [sortTree, isDirNamed]

theorem countDirsNamed_cons (c : Node) (cs : List Node) (n : String) :
    countDirsNamed (c :: cs) n =
      countDirsNamed cs n + (if isDirNamed n c then 1 else 0) := by
  cases h : isDirNamed n c <;> simp [countDirsNamed, List.filter, h]

theorem countDirsNamed_sortForest (cs : List Node) (n : String) :
    countDirsNamed (sortForest cs) n = countDirsNamed cs n := by
  induction cs with
  | nil => rfl
  | cons c cs ih =>
      show countDirsNamed (sortTree c :: sortForest cs) n = _
      rw [countDirsNamed_cons, countDirsNamed_cons, ih, isDirNamed_sortTree]

theorem countDirsNamed_sortChildren (l : List Node) (n : String) :
    countDirsNamed (sortChildren l) n = countDirsNamed l n := by
  unfold countDirsNamed
  exact ((perm_sortChildren l).filter _).length_eq

theorem hasUFF_sorted {F : List Node} {u fp : String} {leaf : Node}
    (h1 : TopDirsUnique F) (h2 : InnerDirsUnique F)
    (hh : HasUFF F u fp leaf) (hfile : sortTree leaf = leaf) :
    ∃ ukids, Node.dir u ukids ∈ sortChildren (sortForest F) ∧
      countDirsNamed (sortChildren (sortForest F)) u = 1 ∧
      ∃ fkids, Node.dir fp fkids ∈ ukids ∧
        countDirsNamed ukids fp = 1 ∧ leaf ∈ fkids := by
  obtain ⟨uk, huk, fk, hfk, hleaf⟩ := hh
  refine ⟨sortChildren (sortForest uk), ?_, ?_,
    sortChildren (sortForest fk), ?_, ?_, ?_⟩
  · exact mem_sortChildren.mpr (mem_sortForest.mpr ⟨_, huk, rfl⟩)
  · rw [countDirsNamed_sortChildren, countDirsNamed_sortForest]
    have ha := le_countDirsNamed_of_mem huk
    have hb := h1 u
    omega
  · exact mem_sortChildren.mpr (mem_sortForest.mpr ⟨_, hfk, rfl⟩)
  · rw [countDirsNamed_sortChildren, countDirsNamed_sortForest]
    have ha := le_countDirsNamed_of_mem hfk
    have hb := h2 _ huk u uk rfl fp
    omega
  · exact mem_sortChildren.mpr (mem_sortForest.mpr ⟨leaf, hleaf, hfile.symm⟩)

/-- C6 amended: the search tree groups first by result author (one `dir` per
author at the root, reused across that author's results), and under each
author groups by the result's whole folder-path string — the path's segments
after dropping a leading `@`-marker segment, minus the file name, re-joined
(`"(root)"` when empty) — with exactly one `dir` per distinct folder path
holding the file leaves directly; no per-segment chain is built. -/
theorem search_tree_author_then_folder_grouping :
    ∀ (rs : List ResultEntry) (t : Node), buildSearchTree rs = some t →
      ∃ cs, t = .root cs ∧
        ∀ e ∈ rs, ∀ fn : String, e.user ≠ "" → e.path ≠ "" →
          (markerDropped e.path).getLast? = some fn →
          ∃ ukids, Node.dir e.user ukids ∈ cs ∧
            countDirsNamed cs e.user = 1 ∧
            ∃ fkids,
              Node.dir (searchFolderLabel (markerDropped e.path)) fkids ∈ ukids ∧
              countDirsNamed ukids (searchFolderLabel (markerDropped e.path)) = 1 ∧
              Node.file fn e.size e.path
                (some ⟨e.user, e.speed, e.free_slots, e.attributes⟩) ∈ fkids := by
  intro rs t h
  by_cases hrs : rs = []
  · simp [buildSearchTree, hrs] at h
  · unfold buildSearchTree at h
    rw [if_neg hrs] at h
    cases h
    refine ⟨sortChildren (sortForest (rs.foldl processEntry [])), rfl, ?_⟩
    intro e he fn hu hp hl
    obtain ⟨h1, h2, -, hestab⟩ := foldl_processEntry_facts rs []
      (fun n => by simp [countDirsNamed]) (fun c hc => absurd hc (by simp))
    exact hasUFF_sorted h1 h2 (hestab e he fn hu hp hl) rfl

/-- Witness for the amended C6 on the single result `u : a\b\f.mp3`. -/
theorem search_tree_author_then_folder_grouping_witness :
    ∃ cs, (Node.root [Node.dir "u" [Node.dir "a\x5cb"
        [Node.file "f.mp3" 7 "a\x5cb\x5cf.mp3" (some ⟨"u", 2, 1, ""⟩)]]]) =
        .root cs ∧
      ∃ ukids, Node.dir "u" ukids ∈ cs ∧ countDirsNamed cs "u" = 1 ∧
        ∃ fkids, Node.dir "a\x5cb" fkids ∈ ukids ∧
          countDirsNamed ukids "a\x5cb" = 1 ∧
          Node.file "f.mp3" 7 "a\x5cb\x5cf.mp3" (some ⟨"u", 2, 1, ""⟩) ∈ fkids := by
  obtain ⟨cs, hcs, hfor⟩ := search_tree_author_then_folder_grouping
    [⟨"u", "a\x5cb\x5cf.mp3", 7, 1, 2, 3, ""⟩]
    (Node.root [Node.dir "u" [Node.dir "a\x5cb"
      [Node.file "f.mp3" 7 "a\x5cb\x5cf.mp3" (some ⟨"u", 2, 1, ""⟩)]]]) rfl
  exact ⟨cs, hcs,
    hfor ⟨"u", "a\x5cb\x5cf.mp3", 7, 1, 2, 3, ""⟩ (by simp) "f.mp3"
      (by decide) (by decide) (by rfl)⟩

end PsycheSearch

